import Mathlib

/-!
Verification of the niebla-158 compact-filter sync engine.

Shallow embedding of the core sources:
- `src/cfheaders.rs` — the rolling compact-filter-header chain (`CfHeaderChain`);
- `src/matcher.rs`   — the watchlist predicate (`filter_matches_any`);
- `src/engine.rs`    — the two-phase orchestrator (`Niebla158::run_to_tip`).

Bytes are `Nat` values, 32-byte hashes are byte lists, u32 arithmetic is `Nat`
with explicit saturation (`min _ u32Max`) and wrap (`% (u32Max + 1)`) exactly
where the Rust source uses `saturating_add` or may wrap.
-/

set_option maxRecDepth 100000

namespace Niebla

abbrev Bytes := List Nat

abbrev Hash := List Nat

def u32Max : Nat := 4294967295

def u32Size : Nat := 4294967296

/-! ## SHA-256 and HASH256

`cfheaders.rs` computes `sha256d::Hash::hash(&data)` (double SHA-256) from the
`bitcoin::hashes` crate; the function below is the standard SHA-256 (FIPS 180-4)
over byte lists, and `hash256` applies it twice. -/

namespace Sha

def mask (x : Nat) : Nat := x % 4294967296

def rotr (n x : Nat) : Nat := mask ((x >>> n) + ((x % (2 ^ n)) <<< (32 - n)))

def bsig0 (x : Nat) : Nat := rotr 2 x ^^^ rotr 13 x ^^^ rotr 22 x

def bsig1 (x : Nat) : Nat := rotr 6 x ^^^ rotr 11 x ^^^ rotr 25 x

def ssig0 (x : Nat) : Nat := rotr 7 x ^^^ rotr 18 x ^^^ (x >>> 3)

def ssig1 (x : Nat) : Nat := rotr 17 x ^^^ rotr 19 x ^^^ (x >>> 10)

def ch (x y z : Nat) : Nat := (x &&& y) ^^^ ((x ^^^ 4294967295) &&& z)

def maj (x y z : Nat) : Nat := (x &&& y) ^^^ (x &&& z) ^^^ (y &&& z)

def K : List Nat :=
  [1116352408, 1899447441, 3049323471, 3921009573, 961987163,
   1508970993, 2453635748, 2870763221, 3624381080, 310598401,
   607225278, 1426881987, 1925078388, 2162078206, 2614888103,
   3248222580, 3835390401, 4022224774, 264347078, 604807628,
   770255983, 1249150122, 1555081692, 1996064986, 2554220882,
   2821834349, 2952996808, 3210313671, 3336571891, 3584528711,
   113926993, 338241895, 666307205, 773529912, 1294757372,
   1396182291, 1695183700, 1986661051, 2177026350, 2456956037,
   2730485921, 2820302411, 3259730800, 3345764771, 3516065817,
   3600352804, 4094571909, 275423344, 430227734, 506948616,
   659060556, 883997877, 958139571, 1322822218, 1537002063,
   1747873779, 1955562222, 2024104815, 2227730452, 2361852424,
   2428436474, 2756734187, 3204031479, 3329325298]

def initH : List Nat :=
  [1779033703, 3144134277, 1013904242, 2773480762, 1359893119,
   2600822924, 528734635, 1541459225]

def toWords : List Nat → List Nat
  | b0 :: b1 :: b2 :: b3 :: rest => (((b0 * 256 + b1) * 256 + b2) * 256 + b3) :: toWords rest
  | _ => []

def lenBytes (len : Nat) : List Nat :=
  let L := len * 8
  [(L >>> 56) % 256, (L >>> 48) % 256, (L >>> 40) % 256, (L >>> 32) % 256,
   (L >>> 24) % 256, (L >>> 16) % 256, (L >>> 8) % 256, L % 256]

def pad (msg : List Nat) : List Nat :=
  let len := msg.length
  let zeros := (119 - len % 64) % 64
  msg ++ 128 :: List.replicate zeros 0 ++ lenBytes len

def schedGo : Nat → List Nat → List Nat
  | 0, acc => acc.reverse
  | n + 1, acc =>
    let w2 := acc.getD 1 0
    let w7 := acc.getD 6 0
    let w15 := acc.getD 14 0
    let w16 := acc.getD 15 0
    schedGo n (mask (ssig1 w2 + w7 + ssig0 w15 + w16) :: acc)

def sched (ws : List Nat) : List Nat := schedGo 48 ws.reverse

def compressGo : List (Nat × Nat) → Nat × Nat × Nat × Nat × Nat × Nat × Nat × Nat →
    Nat × Nat × Nat × Nat × Nat × Nat × Nat × Nat
  | [], st => st
  | (k, w) :: rest, (a, b, c, d, e, f, g, hh) =>
    let t1 := mask (hh + bsig1 e + ch e f g + k + w)
    let t2 := mask (bsig0 a + maj a b c)
    compressGo rest (mask (t1 + t2), a, b, c, mask (d + t1), e, f, g)

def compress (hs : List Nat) (block : List Nat) : List Nat :=
  let ws := sched (toWords block)
  match hs with
  | [h0, h1, h2, h3, h4, h5, h6, h7] =>
    let (a, b, c, d, e, f, g, hh) := compressGo (K.zip ws) (h0, h1, h2, h3, h4, h5, h6, h7)
    [mask (h0 + a), mask (h1 + b), mask (h2 + c), mask (h3 + d),
     mask (h4 + e), mask (h5 + f), mask (h6 + g), mask (h7 + hh)]
  | _ => hs

def blocksGo : Nat → List Nat → List Nat → List Nat
  | 0, hs, _ => hs
  | n + 1, hs, bytes => blocksGo n (compress hs (bytes.take 64)) (bytes.drop 64)

def wordToBytes (w : Nat) : List Nat :=
  [(w >>> 24) % 256, (w >>> 16) % 256, (w >>> 8) % 256, w % 256]

end Sha

/-- One application of SHA-256 to a byte list, yielding 32 bytes. -/
def sha256 (msg : List Nat) : List Nat :=
  let p := Sha.pad msg
  let hs := Sha.blocksGo (p.length / 64) Sha.initH p
  (hs.map Sha.wordToBytes).flatten

/-- Double SHA-256, the domain's HASH256 (`bitcoin::hashes::sha256d`). -/
def hash256 (msg : List Nat) : List Nat := sha256 (sha256 msg)

/-! ## CfHeaderChain (`src/cfheaders.rs`) -/

/-- The all-zero 32-byte hash, `BlockHash::all_zeros()`. -/
def zeroHash : Hash := List.replicate 32 0

/-- Rolling cfheaders chain state (`struct CfHeaderChain`):
`tip_height` the last height applied, `tip_hash` the rolling header after
applying up to `tip_height`. -/
structure CfHeaderChain where
  tip_height : Nat
  tip_hash : Hash
deriving DecidableEq

/-- Errors `apply_batch` bails with (`anyhow::bail!` messages in the source
distinguish exactly these two cases, carrying the shown values). -/
inductive CfError where
  | batchStartMismatch (got expected : Nat)
  | checkpointMismatch (height : Nat)
deriving DecidableEq

/-- Initialize from store (or start at height 0 with all-zero hash);
`CfHeaderChain::new_from_store`: a `prev` with height 0 is treated as absent. -/
def CfHeaderChain.new_from_store : Option (Nat × Hash) → CfHeaderChain
  | some (h, hh) => if h > 0 then ⟨h, hh⟩ else ⟨0, zeroHash⟩
  | none => ⟨0, zeroHash⟩

/-- The `for (i, fh_bytes) in headers.iter().enumerate()` loop of `apply_batch`:
`h` is the height of the next header (`start_height + i`, u32 wrap made
explicit); folds `cur = HASH256(rolling || F_n)`, verifies an optional
checkpoint at `h` (first list entry with that height, as `Iterator::find`),
and advances the tip after a passed check. On mismatch the state of the last
successfully applied header is returned alongside the error, mirroring the
mutated `&mut self` at the `bail!`. -/
def CfHeaderChain.applyGo (checkpoints : List (Nat × Hash)) :
    List Hash → CfHeaderChain → Nat → CfHeaderChain × Option CfError
  | [], c, _ => (c, none)
  | fh :: rest, c, h =>
    match checkpoints.find? (fun p => p.1 == h) with
    | some (_, chk) =>
      if hash256 (c.tip_hash ++ fh) = chk then
        CfHeaderChain.applyGo checkpoints rest ⟨h, hash256 (c.tip_hash ++ fh)⟩ ((h + 1) % u32Size)
      else
        (c, some (.checkpointMismatch h))
    | none =>
      CfHeaderChain.applyGo checkpoints rest ⟨h, hash256 (c.tip_hash ++ fh)⟩ ((h + 1) % u32Size)

/-- `CfHeaderChain::apply_batch`: contiguity check with saturating `+1`
(`tip_height.saturating_add(1)` is `min (tip_height + 1) u32Max`), then the
fold over the batch. Returns the final chain state together with the error,
if any (the Rust method mutates `self` and returns `Result<()>`). -/
def CfHeaderChain.apply_batch (c : CfHeaderChain) (start_height : Nat)
    (headers : List Hash) (checkpoints : List (Nat × Hash)) :
    CfHeaderChain × Option CfError :=
  if start_height ≠ min (c.tip_height + 1) u32Max then
    (c, some (.batchStartMismatch start_height (min (c.tip_height + 1) u32Max)))
  else
    CfHeaderChain.applyGo checkpoints headers c start_height

/-- Left fold of the rolling recurrence over a digest list:
`H_n = HASH256(H_n1 || F_n)` starting from a given rolling hash. -/
def foldDigests (h0 : Hash) (ds : List Hash) : Hash :=
  ds.foldl (fun acc d => hash256 (acc ++ d)) h0

/-! ## FilterMatcher (`src/matcher.rs`) -/

/-- Modelled from the spec: `bitcoin::bip158::BlockFilter::match_any`, the
compact-filter membership test `matcher.rs` delegates to, lives in the external
`bitcoin` crate and is not part of this repository's sources. Per §4.2 of the
spec it keys its randomized hash-to-range mapping on the block hash and tests
set-membership of each watch element against the Golomb-coded set in the raw
filter bytes: true if any element is contained, false otherwise; an empty raw
filter yields false; an empty watch yields false; malformed filter content is
a filter error. The Golomb decoding itself is abstracted as the `golomb`
parameter (`none` = malformed content). -/
def bip158_match_any (golomb : Bytes → Option (Hash → Bytes → Bool))
    (block_hash : Hash) (raw_filter : Bytes) (watch : List Bytes) : Option Bool :=
  if raw_filter.isEmpty then some false
  else if watch.isEmpty then some false
  else
    match golomb raw_filter with
    | none => none
    | some mem => some (watch.any (mem block_hash))

/-- `filter_matches_any` (`src/matcher.rs`): wraps the raw bytes in a
`BlockFilter` and forwards the owned script byte-strings unchanged to the
library's `match_any` (the `as_bytes().to_vec()` collection is the identity on
byte lists). `matchAny` stands for the external library call. -/
def filter_matches_any (matchAny : Hash → Bytes → List Bytes → Option Bool)
    (block_hash : Hash) (raw_filter : Bytes) (scripts : List Bytes) : Option Bool :=
  matchAny block_hash raw_filter scripts

/-! ## Engine (`src/engine.rs`)

The four collaborator traits (`Store`, `HeaderSource`, `FilterSource`,
`WalletHooks`) plus the two external pure library calls the engine makes
(bip158 matching, consensus block decoding) are modelled as an environment of
fallible functions (`none` = the collaborator returned an error). A run
produces the ordered trace of collaborator invocations together with its
result (`none` = ok). -/

/-- `CfHeadersBatch` (`src/filter_source.rs`). -/
structure CfHeadersBatch where
  start_height : Nat
  headers : List Hash
deriving DecidableEq

/-- One observable step of a run: each collaborator call (recorded at the
moment the engine makes it), the internal `apply_batch` call, and the matcher
verdict. `on_block_match` records whether the hook completed successfully. -/
inductive Event where
  | load_cf_tip
  | tip_height_q
  | hash_at_height (h : Nat)
  | get_cfheaders (start_h : Nat) (stop_hash : Hash)
  | apply_batch_call (start_h : Nat)
  | save_cf_tip (h : Nat) (hash : Hash)
  | get_last_scanned
  | watchlist_q
  | get_cfilter (bh : Hash)
  | match_res (h : Nat) (res : Option Bool)
  | get_block (bh : Hash)
  | on_block_match (h : Nat) (bh : Hash) (ok : Bool)
  | set_last_scanned (h : Nat)
deriving DecidableEq

/-- Error kinds of a run (§7): which wrapped failure aborted `run_to_tip`.
`fuel` marks exhaustion of the Phase-A loop bound (the Rust loop can livelock
on a source that returns empty batches; the spec notes this). -/
inductive EngErr where
  | source
  | store
  | hook
  | decode
  | filter
  | cf (e : CfError)
  | fuel
deriving DecidableEq

/-- The collaborator environment: `Store`, `HeaderSource`, `FilterSource`,
`WalletHooks` operations plus the two external library calls, as pure
fallible functions (`none` = error surfaced by that call). -/
structure Env where
  load_cf_tip : Option (Option (Nat × Hash))
  save_cf_tip : Nat → Hash → Option Unit
  get_last_scanned : Option Nat
  set_last_scanned : Nat → Option Unit
  tip_height : Option Nat
  hash_at_height : Nat → Option Hash
  get_cfheaders : Nat → Hash → Option CfHeadersBatch
  get_cfilter : Hash → Option Bytes
  get_block : Hash → Option Bytes
  watchlist : Option (List Bytes)
  on_block_match : Nat → Hash → List Nat → Option Unit
  bip158 : Hash → Bytes → List Bytes → Option Bool
  decode_block : Bytes → Option (List Nat)

/-- `const CFHEADERS_BATCH: u32 = 2_000` — how many cfheaders to advance per
request window. -/
def CFHEADERS_BATCH : Nat := 2000

/-- The Phase-A stop-height expression `next + CFHEADERS_BATCH - 1` of
`run_to_tip`, as unbounded arithmetic (before any u32 truncation). -/
def stop_height_arg (next : Nat) : Nat := next + CFHEADERS_BATCH - 1

/-- Phase A of `run_to_tip`: `while next <= chain_tip` — fetch the stop hash,
fetch a cfheaders batch, apply it (passing `batch.start_height` through
unchanged), persist the new tip, recompute `next` with saturating `+1`.
`fuel` bounds the loop (see `EngErr.fuel`); u32 wrap of the stop-height
expression is explicit. -/
def phaseALoop (env : Env) (cps : List (Nat × Hash)) (chain_tip : Nat) :
    Nat → CfHeaderChain → List Event × Except EngErr CfHeaderChain
  | 0, _ => ([], .error .fuel)
  | fuel + 1, c =>
    let next := min (c.tip_height + 1) u32Max
    if next ≤ chain_tip then
      let stop_h := min (stop_height_arg next % u32Size) chain_tip
      match env.hash_at_height stop_h with
      | none => ([.hash_at_height stop_h], .error .source)
      | some stop_hash =>
        match env.get_cfheaders next stop_hash with
        | none => ([.hash_at_height stop_h, .get_cfheaders next stop_hash], .error .source)
        | some batch =>
          let pre := [Event.hash_at_height stop_h, Event.get_cfheaders next stop_hash,
            Event.apply_batch_call batch.start_height]
          let ab := c.apply_batch batch.start_height batch.headers cps
          match ab.2 with
          | some e => (pre, .error (.cf e))
          | none =>
            match env.save_cf_tip ab.1.tip_height ab.1.tip_hash with
            | none => (pre ++ [.save_cf_tip ab.1.tip_height ab.1.tip_hash], .error .store)
            | some _ =>
              let rest := phaseALoop env cps chain_tip fuel ab.1
              (pre ++ [.save_cf_tip ab.1.tip_height ab.1.tip_hash] ++ rest.1, rest.2)
    else ([], .ok c)

/-- One Phase-B height: pull the block hash and the filter, test it against
the watchlist, on a hit fetch and decode the block and deliver its
transactions, then persist the scanned height. Result `none` = continue. -/
def scanHeight (env : Env) (watch : List Bytes) (h : Nat) : List Event × Option EngErr :=
  match env.hash_at_height h with
  | none => ([.hash_at_height h], some .source)
  | some bh =>
    match env.get_cfilter bh with
    | none => ([.hash_at_height h, .get_cfilter bh], some .source)
    | some raw =>
      match filter_matches_any env.bip158 bh raw watch with
      | none => ([.hash_at_height h, .get_cfilter bh, .match_res h none], some .filter)
      | some false =>
        ([.hash_at_height h, .get_cfilter bh, .match_res h (some false), .set_last_scanned h],
          match env.set_last_scanned h with
          | none => some .store
          | some _ => none)
      | some true =>
        match env.get_block bh with
        | none =>
          ([.hash_at_height h, .get_cfilter bh, .match_res h (some true), .get_block bh],
            some .source)
        | some raw_block =>
          match env.decode_block raw_block with
          | none =>
            ([.hash_at_height h, .get_cfilter bh, .match_res h (some true), .get_block bh],
              some .decode)
          | some txs =>
            match env.on_block_match h bh txs with
            | none =>
              ([.hash_at_height h, .get_cfilter bh, .match_res h (some true), .get_block bh,
                 .on_block_match h bh false], some .hook)
            | some _ =>
              ([.hash_at_height h, .get_cfilter bh, .match_res h (some true), .get_block bh,
                 .on_block_match h bh true, .set_last_scanned h],
                match env.set_last_scanned h with
                | none => some .store
                | some _ => none)

/-- The Phase-B `for h in (last_scanned + 1)..=end_h` loop over its list of
heights, in ascending order, aborting on the first error. -/
def scanLoop (env : Env) (watch : List Bytes) : List Nat → List Event × Option EngErr
  | [] => ([], none)
  | h :: hs =>
    let s := scanHeight env watch h
    match s.2 with
    | some e => (s.1, some e)
    | none =>
      let rest := scanLoop env watch hs
      (s.1 ++ rest.1, rest.2)

/-- `Niebla158::run_to_tip`: load the persisted cf tip, query the chain tip,
run Phase A to the tip, then scan filters from `last_scanned + 1` through the
Phase-A end height — unless the watchlist is empty, in which case the scanned
marker fast-forwards to the Phase-A end height. Returns the collaborator
trace and the run result (`none` = ok). The `(last + 1)` of the scan range is
u32 arithmetic, wrap explicit. -/
def run_to_tip (env : Env) (cps : List (Nat × Hash)) (fuel : Nat) :
    List Event × Option EngErr :=
  match env.load_cf_tip with
  | none => ([.load_cf_tip], some .store)
  | some cf_tip =>
    let c0 := CfHeaderChain.new_from_store cf_tip
    match env.tip_height with
    | none => ([.load_cf_tip, .tip_height_q], some .source)
    | some chain_tip =>
      let pa := phaseALoop env cps chain_tip fuel c0
      let pre := [Event.load_cf_tip, Event.tip_height_q] ++ pa.1
      match pa.2 with
      | .error e => (pre, some e)
      | .ok c =>
        match env.get_last_scanned with
        | none => (pre ++ [.get_last_scanned], some .store)
        | some last =>
          let end_h := c.tip_height
          match env.watchlist with
          | none => (pre ++ [.get_last_scanned, .watchlist_q], some .hook)
          | some watch =>
            if watch.isEmpty then
              (pre ++ [.get_last_scanned, .watchlist_q, .set_last_scanned end_h],
                match env.set_last_scanned end_h with
                | none => some .store
                | some _ => none)
            else
              let s := (last + 1) % u32Size
              let sc := scanLoop env watch (List.range' s (end_h + 1 - s))
              (pre ++ [.get_last_scanned, .watchlist_q] ++ sc.1, sc.2)

/-- The CfHeaderChain tip height at the end of Phase A of a run (the `end_h`
Phase B scans to), when Phase A completes. -/
def phaseATip (env : Env) (cps : List (Nat × Hash)) (fuel : Nat) : Option Nat :=
  match env.load_cf_tip with
  | none => none
  | some cf_tip =>
    match env.tip_height with
    | none => none
    | some chain_tip =>
      match (phaseALoop env cps chain_tip fuel (CfHeaderChain.new_from_store cf_tip)).2 with
      | .ok c => some c.tip_height
      | .error _ => none

/-! ## Derived forms used by the claims -/

/-- Applying a sequence of batches with `apply_batch`, each with its own
start height and checkpoint set; `none` when any batch errors. -/
def applySeqOk : CfHeaderChain → List (Nat × List Hash × List (Nat × Hash)) → Option CfHeaderChain
  | c, [] => some c
  | c, b :: rest =>
    let r := c.apply_batch b.1 b.2.1 b.2.2
    match r.2 with
    | none => applySeqOk r.1 rest
    | some _ => none

/-- All digests of a batch sequence, in application order. -/
def batchDigests (bs : List (Nat × List Hash × List (Nat × Hash))) : List Hash :=
  (bs.map (fun b => b.2.1)).flatten

/-- Applying digests one at a time: each call is a size-1 batch at the
matching contiguous start height (the saturated `tip_height + 1`) with the
same checkpoint set, stopping at the first error. -/
def applyOneByOne (cps : List (Nat × Hash)) : CfHeaderChain → List Hash → CfHeaderChain × Option CfError
  | c, [] => (c, none)
  | c, d :: rest =>
    let r := c.apply_batch (min (c.tip_height + 1) u32Max) [d] cps
    match r.2 with
    | none => applyOneByOne cps r.1 rest
    | some e => (r.1, some e)

/-- The rolling hash the batch fold computes at height `x` (for
`c.tip_height ≤ x`): the fold of the first `x - c.tip_height` digests over
the chain's current rolling hash. -/
def rollAt (c : CfHeaderChain) (headers : List Hash) (x : Nat) : Hash :=
  foldDigests c.tip_hash (headers.take (x - c.tip_height))

/-! ## Trace predicates for the engine claims -/

/-- Whether an event is one C6 forbids in a no-progress second run:
`apply_batch`, `on_block_match`, `get_cfheaders`, `get_cfilter`, `get_block`. -/
def c6Forbidden : Event → Bool
  | .apply_batch_call _ => true
  | .on_block_match _ _ _ => true
  | .get_cfheaders _ _ => true
  | .get_cfilter _ => true
  | .get_block _ => true
  | _ => false

/-- Whether an event is one C7 forbids in an empty-watchlist run:
`on_block_match`, `get_cfilter`, `get_block`. -/
def c7Forbidden : Event → Bool
  | .on_block_match _ _ _ => true
  | .get_cfilter _ => true
  | .get_block _ => true
  | _ => false

/-- The height a Phase-B-only event is about (`on_block_match`,
`set_last_scanned`, `match_res`); `none` for every other event. -/
def evScanHeight : Event → Option Nat
  | .on_block_match h _ _ => some h
  | .set_last_scanned h => some h
  | .match_res h _ => some h
  | _ => none

/-- Event is a `set_last_scanned`. -/
def isSls : Event → Bool
  | .set_last_scanned _ => true
  | _ => false

/-- Event is an `on_block_match` at height `h` (any outcome). -/
def obmAt (h : Nat) : Event → Bool
  | .on_block_match h' _ _ => h' == h
  | _ => false

/-- Event is a failed `on_block_match` at height `h`. -/
def obmBad (h : Nat) : Event → Bool
  | .on_block_match h' _ ok => h' == h && !ok
  | _ => false

/-- Event is a `set_last_scanned` at height `h`. -/
def slsAt (h : Nat) : Event → Bool
  | .set_last_scanned h' => h' == h
  | _ => false

/-- The heights of the `on_block_match` events of a trace, in order. -/
def obmHeights (tr : List Event) : List Nat :=
  tr.filterMap fun e =>
    match e with
    | .on_block_match h _ _ => some h
    | _ => none

/-- Restart safety: wherever `set_last_scanned h` appears in the trace, every
`on_block_match` at `h` before it completed successfully, and none occurs
after it. -/
def MatchBeforePersist (tr : List Event) : Prop :=
  ∀ h l1 l2, tr = l1 ++ Event.set_last_scanned h :: l2 →
    (∀ e ∈ l1, obmBad h e = false) ∧ (∀ e ∈ l2, obmAt h e = false)

/-- No-hit heights persist immediately: a `false` matcher verdict at `h` is
followed directly by `set_last_scanned h` (so no block fetch and no
`on_block_match` happens in between). -/
def NoHitNoCall (tr : List Event) : Prop :=
  ∀ h l1 l2, tr = l1 ++ Event.match_res h (some false) :: l2 →
    ∃ l3, l2 = Event.set_last_scanned h :: l3

/-- A match verdict of `true` at `h` that is later persisted has a successful
`on_block_match` at `h` strictly in between. -/
def HitDelivered (tr : List Event) : Prop :=
  ∀ h l1 l2, tr = l1 ++ Event.match_res h (some true) :: l2 →
    ∀ l3 l4, l2 = l3 ++ Event.set_last_scanned h :: l4 →
      ∃ bh, Event.on_block_match h bh true ∈ l3

/-- An event that is neither a match verdict nor a delivery. -/
def isObmOrMres : Event → Bool
  | .on_block_match _ _ _ => true
  | .match_res _ _ => true
  | _ => false

/-- Concrete environment for the C6 witness: a store populated at height 3
with the chain tip unchanged at 3. -/
def envC6 : Env where
  load_cf_tip := some (some (3, zeroHash))
  save_cf_tip := fun _ _ => some ()
  get_last_scanned := some 3
  set_last_scanned := fun _ => some ()
  tip_height := some 3
  hash_at_height := fun _ => some zeroHash
  get_cfheaders := fun _ _ => some ⟨0, []⟩
  get_cfilter := fun _ => some []
  get_block := fun _ => some []
  watchlist := some [[1]]
  on_block_match := fun _ _ _ => some ()
  bip158 := fun _ _ _ => some false
  decode_block := fun _ => some []

/-- Concrete environment for the C6 counterexample: a completed run at
`tip = u32::MAX` persisted, chain tip unchanged at `u32::MAX`, a source that
answers every query. -/
def envC6max : Env where
  load_cf_tip := some (some (u32Max, zeroHash))
  save_cf_tip := fun _ _ => some ()
  get_last_scanned := some u32Max
  set_last_scanned := fun _ => some ()
  tip_height := some u32Max
  hash_at_height := fun _ => some zeroHash
  get_cfheaders := fun s _ => some ⟨s, []⟩
  get_cfilter := fun _ => some []
  get_block := fun _ => some []
  watchlist := some [[1]]
  on_block_match := fun _ _ _ => some ()
  bip158 := fun _ _ _ => some false
  decode_block := fun _ => some []

/-- Concrete environment for the C10 counterexample: persisted cf tip at
height `u32::MAX - 10` and chain tip `u32::MAX`. -/
def envC10 : Env where
  load_cf_tip := some (some (u32Max - 10, zeroHash))
  save_cf_tip := fun _ _ => some ()
  get_last_scanned := some (u32Max - 10)
  set_last_scanned := fun _ => some ()
  tip_height := some u32Max
  hash_at_height := fun _ => none
  get_cfheaders := fun s _ => some ⟨s, []⟩
  get_cfilter := fun _ => some []
  get_block := fun _ => some []
  watchlist := some [[1]]
  on_block_match := fun _ _ _ => some ()
  bip158 := fun _ _ _ => some false
  decode_block := fun _ => some []

/-- Concrete environment for the C7 witness: empty watchlist, store at
height 3 and chain tip 3. -/
def envC7 : Env where
  load_cf_tip := some (some (3, zeroHash))
  save_cf_tip := fun _ _ => some ()
  get_last_scanned := some 3
  set_last_scanned := fun _ => some ()
  tip_height := some 3
  hash_at_height := fun _ => some zeroHash
  get_cfheaders := fun s _ => some ⟨s, []⟩
  get_cfilter := fun _ => some []
  get_block := fun _ => some []
  watchlist := some []
  on_block_match := fun _ _ _ => some ()
  bip158 := fun _ _ _ => some false
  decode_block := fun _ => some []

/-! ## Lemmas about the batch fold -/

theorem foldDigests_nil (x : Hash) : foldDigests x [] = x := rfl

theorem foldDigests_cons (x : Hash) (d : Hash) (l : List Hash) :
    foldDigests x (d :: l) = foldDigests (hash256 (x ++ d)) l := rfl

theorem foldDigests_append (x : Hash) (l1 l2 : List Hash) :
    foldDigests x (l1 ++ l2) = foldDigests (foldDigests x l1) l2 := by
  simp [foldDigests]

/-- One `applyGo` step either continues into the rest of the batch with the
advanced state, or stops on a checkpoint mismatch at this height without
advancing. -/
theorem applyGo_cons_cases (cps : List (Nat × Hash)) (fh : Hash) (rest : List Hash)
    (c : CfHeaderChain) (h : Nat) :
    CfHeaderChain.applyGo cps (fh :: rest) c h =
      CfHeaderChain.applyGo cps rest ⟨h, hash256 (c.tip_hash ++ fh)⟩ ((h + 1) % u32Size) ∨
    (∃ chk, cps.find? (fun p => p.1 == h) = some (h, chk) ∧
      hash256 (c.tip_hash ++ fh) ≠ chk ∧
      CfHeaderChain.applyGo cps (fh :: rest) c h = (c, some (.checkpointMismatch h))) := by
  rw [CfHeaderChain.applyGo]
  rcases hfind : cps.find? (fun p => p.1 == h) with _ | ⟨ph, chk⟩
  · rw [hfind]
    exact Or.inl rfl
  · have hph : ph = h := by simpa using List.find?_some hfind
    subst hph
    rw [hfind]
    by_cases hc : hash256 (c.tip_hash ++ fh) = chk
    · exact Or.inl (if_pos hc)
    · exact Or.inr ⟨chk, rfl, hc, if_neg hc⟩

/-- A successful `applyGo` folds every digest into the rolling hash,
whatever the height argument does. -/
theorem applyGo_ok_hash (cps : List (Nat × Hash)) :
    ∀ (hs : List Hash) (c : CfHeaderChain) (h : Nat),
      (CfHeaderChain.applyGo cps hs c h).2 = none →
      (CfHeaderChain.applyGo cps hs c h).1.tip_hash = foldDigests c.tip_hash hs := by
  intro hs
  induction hs with
  | nil => intro c h _; rfl
  | cons fh rest ih =>
    intro c h hok
    rcases applyGo_cons_cases cps fh rest c h with hstep | ⟨chk, _, _, hstop⟩
    · rw [hstep] at hok ⊢
      exact ih _ _ hok
    · rw [hstop] at hok
      exact Option.noConfusion hok

/-- A successful `applyGo` entered at the chain's next height advances
`tip_height` by the number of digests, provided the heights stay below the
u32 wrap. -/
theorem applyGo_ok_height (cps : List (Nat × Hash)) :
    ∀ (hs : List Hash) (c : CfHeaderChain),
      c.tip_height + 1 + hs.length ≤ u32Size →
      (CfHeaderChain.applyGo cps hs c (c.tip_height + 1)).2 = none →
      (CfHeaderChain.applyGo cps hs c (c.tip_height + 1)).1.tip_height =
        c.tip_height + hs.length := by
  intro hs
  induction hs with
  | nil => intro c _ _; rfl
  | cons fh rest ih =>
    intro c hb hok
    rcases applyGo_cons_cases cps fh rest c (c.tip_height + 1) with hstep | ⟨chk, _, _, hstop⟩
    · rw [hstep] at hok ⊢
      rcases rest with _ | ⟨d, rest'⟩
      · simp [CfHeaderChain.applyGo]
      · have hmod : (c.tip_height + 1 + 1) % u32Size = c.tip_height + 1 + 1 :=
          Nat.mod_eq_of_lt (by simp only [List.length_cons] at hb; omega)
        rw [hmod] at hok ⊢
        have hb2 : (⟨c.tip_height + 1, hash256 (c.tip_hash ++ fh)⟩ :
            CfHeaderChain).tip_height + 1 + (d :: rest').length ≤ u32Size := by
          show c.tip_height + 1 + 1 + (d :: rest').length ≤ u32Size
          simp only [List.length_cons] at hb ⊢
          omega
        have hih : (CfHeaderChain.applyGo cps (d :: rest')
            ⟨c.tip_height + 1, hash256 (c.tip_hash ++ fh)⟩
            (c.tip_height + 1 + 1)).1.tip_height = c.tip_height + 1 + (d :: rest').length :=
          ih ⟨c.tip_height + 1, hash256 (c.tip_hash ++ fh)⟩ hb2 hok
        rw [hih]
        simp only [List.length_cons]
        omega
    · rw [hstop] at hok
      exact Option.noConfusion hok

/-- Behaviour of a successful `apply_batch`: the rolling hash is the fold of
the batch digests (unconditionally) and, within the u32 height range, the tip
advances by the batch length. -/
theorem apply_batch_ok_spec (c : CfHeaderChain) (s : Nat) (hs : List Hash)
    (cps : List (Nat × Hash)) (hok : (c.apply_batch s hs cps).2 = none) :
    (c.apply_batch s hs cps).1.tip_hash = foldDigests c.tip_hash hs ∧
    (c.tip_height + hs.length ≤ u32Max →
      (c.apply_batch s hs cps).1.tip_height = c.tip_height + hs.length) := by
  rw [CfHeaderChain.apply_batch] at hok ⊢
  by_cases hstart : s = min (c.tip_height + 1) u32Max
  · rw [if_neg (by simpa using hstart)] at hok ⊢
    subst hstart
    constructor
    · exact applyGo_ok_hash cps hs c _ hok
    · intro hb
      by_cases htip : c.tip_height < u32Max
      · have hmin : min (c.tip_height + 1) u32Max = c.tip_height + 1 := by omega
        rw [hmin] at hok ⊢
        exact applyGo_ok_height cps hs c
          (by have : u32Size = u32Max + 1 := by decide
              omega) hok
      · have hlen : hs.length = 0 := by omega
        rcases List.length_eq_zero.mp hlen with rfl
        simp [CfHeaderChain.applyGo]
  · rw [if_pos hstart] at hok
    exact Option.noConfusion hok

/-- Behaviour of a successful batch-sequence application. -/
theorem applySeqOk_spec :
    ∀ (bs : List (Nat × List Hash × List (Nat × Hash))) (c c' : CfHeaderChain),
      applySeqOk c bs = some c' →
      c'.tip_hash = foldDigests c.tip_hash (batchDigests bs) ∧
      (c.tip_height + (batchDigests bs).length ≤ u32Max →
        c'.tip_height = c.tip_height + (batchDigests bs).length) := by
  intro bs
  induction bs with
  | nil =>
    intro c c' hok
    simp only [applySeqOk, Option.some.injEq] at hok
    subst hok
    exact ⟨rfl, fun _ => rfl⟩
  | cons b rest ih =>
    intro c c' hok
    simp only [applySeqOk] at hok
    rcases hr : (c.apply_batch b.1 b.2.1 b.2.2).2 with _ | e
    · simp only [hr] at hok
      have hstep := apply_batch_ok_spec c b.1 b.2.1 b.2.2 hr
      have hrest := ih _ _ hok
      have hd : batchDigests (b :: rest) = b.2.1 ++ batchDigests rest := by
        simp [batchDigests]
      constructor
      · rw [hd, foldDigests_append, ← hstep.1]
        exact hrest.1
      · intro hb
        rw [hd] at hb ⊢
        simp only [List.length_append] at hb ⊢
        have h1 := hstep.2 (by omega)
        have h2 := hrest.2 (by rw [h1]; omega)
        omega
    · simp only [hr] at hok
      exact Option.noConfusion hok

/-! ## C1 — recurrence invariant -/

/-- C1. For every sequence of batches successfully applied from the initial
state, the final `tip_hash` is the left fold `H_n = HASH256(H_n1 || F_n)`
over all applied digests in height order starting from the all-zero hash,
and (while the total digest count stays in the u32 height range)
`tip_height` is the number of digests applied. -/
theorem c1_recurrence (bs : List (Nat × List Hash × List (Nat × Hash)))
    (c' : CfHeaderChain)
    (hok : applySeqOk (CfHeaderChain.new_from_store none) bs = some c') :
    c'.tip_hash = foldDigests zeroHash (batchDigests bs) ∧
    ((batchDigests bs).length ≤ u32Max → c'.tip_height = (batchDigests bs).length) := by
  have h := applySeqOk_spec bs (CfHeaderChain.new_from_store none) c' hok
  simpa [CfHeaderChain.new_from_store] using h

/-- Witness for C1 at the one-digest batch `[(1, [0…0], ∅)]`. -/
theorem c1_recurrence_witness :
    (⟨1, hash256 (zeroHash ++ zeroHash)⟩ : CfHeaderChain).tip_hash =
      foldDigests zeroHash (batchDigests [(1, [zeroHash], [])]) ∧
    ((batchDigests [(1, [zeroHash], [])]).length ≤ u32Max →
      (⟨1, hash256 (zeroHash ++ zeroHash)⟩ : CfHeaderChain).tip_height =
        (batchDigests [(1, [zeroHash], [])]).length) :=
  c1_recurrence [(1, [zeroHash], [])] ⟨1, hash256 (zeroHash ++ zeroHash)⟩ (by rfl)

/-! ## C4 — empty batch -/

/-- C4 counterexample: from the initial state (tip 0), an empty batch with
`start_height = 5` is rejected with `BatchStartMismatch`, not accepted: the
contiguity check runs before the empty fold. The claim's "returns ok ...
regardless of start_height" is false. -/
theorem c4_counterexample :
    ((CfHeaderChain.new_from_store none).apply_batch 5 [] []).2 =
      some (CfError.batchStartMismatch 5 1) := by decide

/-- C4 amended: an empty batch never touches the state; it returns ok exactly
when `start_height` equals the saturated `tip_height + 1` and fails with
`BatchStartMismatch` otherwise. -/
theorem c4_empty_batch (c : CfHeaderChain) (s : Nat) (cps : List (Nat × Hash)) :
    c.apply_batch s [] cps =
      (c, if s = min (c.tip_height + 1) u32Max then none
        else some (.batchStartMismatch s (min (c.tip_height + 1) u32Max))) := by
  by_cases hs : s = min (c.tip_height + 1) u32Max
  · simp [CfHeaderChain.apply_batch, CfHeaderChain.applyGo, hs]
  · simp [CfHeaderChain.apply_batch, hs]

/-! ## C5 — saturated tip -/

/-- C5 counterexample: at `tip_height = u32::MAX` a non-empty batch with
`start_height = u32::MAX` is accepted (the saturated expected height is
`u32::MAX` itself), refuting "fails with BatchStartMismatch for every
possible start_height". -/
theorem c5_counterexample :
    ((CfHeaderChain.mk u32Max zeroHash).apply_batch u32Max [zeroHash] []).2 = none := by
  decide

/-- C5 amended: at `tip_height = u32::MAX` the saturating `+1` makes the
expected start height `u32::MAX`, so `apply_batch` fails with
`BatchStartMismatch` for every `start_height ≠ u32::MAX` — in particular
`start_height = 0` is rejected and no wrap-around to 0 occurs — while
`start_height = u32::MAX` itself passes the contiguity check. -/
theorem c5_saturated_mismatch (hh : Hash) (s : Nat) (hs : List Hash)
    (cps : List (Nat × Hash)) (hne : s ≠ u32Max) :
    (CfHeaderChain.mk u32Max hh).apply_batch s hs cps =
      (CfHeaderChain.mk u32Max hh, some (.batchStartMismatch s u32Max)) := by
  have hmin : min (u32Max + 1) u32Max = u32Max := by omega
  simp [CfHeaderChain.apply_batch, hmin, hne]

/-- Witness for C5's amended theorem at `start_height = 0`. -/
theorem c5_saturated_mismatch_witness :
    (CfHeaderChain.mk u32Max zeroHash).apply_batch 0 [zeroHash] [] =
      (CfHeaderChain.mk u32Max zeroHash, some (.batchStartMismatch 0 u32Max)) :=
  c5_saturated_mismatch zeroHash 0 [zeroHash] [] (by decide)

/-- One `applyGo` step, uniformly in the remaining batch: either a checkpoint
at this height mismatches and every batch starting with this digest stops
here, or every such batch continues into its tail with the advanced state. -/
theorem applyGo_step (cps : List (Nat × Hash)) (fh : Hash) (c : CfHeaderChain) (h : Nat) :
    ((∃ chk, cps.find? (fun p => p.1 == h) = some (h, chk) ∧
        hash256 (c.tip_hash ++ fh) ≠ chk) ∧
      ∀ rest, CfHeaderChain.applyGo cps (fh :: rest) c h =
        (c, some (.checkpointMismatch h))) ∨
    ((∀ chk, cps.find? (fun p => p.1 == h) = some (h, chk) →
        hash256 (c.tip_hash ++ fh) = chk) ∧
      ∀ rest, CfHeaderChain.applyGo cps (fh :: rest) c h =
        CfHeaderChain.applyGo cps rest ⟨h, hash256 (c.tip_hash ++ fh)⟩ ((h + 1) % u32Size)) := by
  rcases hfind : cps.find? (fun p => p.1 == h) with _ | ⟨ph, chk⟩
  · right
    constructor
    · intro chk' hfind'
      rw [hfind] at hfind'
      exact Option.noConfusion hfind'
    · intro rest
      rw [CfHeaderChain.applyGo, hfind]
  · have hph : ph = h := by simpa using List.find?_some hfind
    subst hph
    by_cases hc : hash256 (c.tip_hash ++ fh) = chk
    · right
      constructor
      · intro chk' hfind'
        rw [hfind] at hfind'
        have hp := Option.some.inj hfind'
        injection hp with h1 h2
        rw [hc, h2]
      · intro rest
        simp only [CfHeaderChain.applyGo, hfind, if_pos hc]
    · left
      refine ⟨⟨chk, hfind, hc⟩, fun rest => ?_⟩
      simp only [CfHeaderChain.applyGo, hfind, if_neg hc]

/-! ## C9 — one-by-one equals one batch -/

/-- C9 counterexample: from `tip_height = u32::MAX - 1` with two digests and
no checkpoints, both the two size-1 batches (each at the matching contiguous
start height, the saturated `tip_height + 1`) and the single two-digest batch
succeed, yet the one-by-one path ends at `tip_height = u32::MAX` (each
saturated start pins the height there) while the single batch's
`start_height + i` wraps and ends at `tip_height = 0`: the final
`(tip_height, tip_hash)` pairs differ, refuting the claim as stated. -/
theorem c9_counterexample :
    (applyOneByOne [] ⟨u32Max - 1, zeroHash⟩ [zeroHash, zeroHash]).2 = none ∧
    ((⟨u32Max - 1, zeroHash⟩ : CfHeaderChain).apply_batch (min (u32Max - 1 + 1) u32Max)
      [zeroHash, zeroHash] []).2 = none ∧
    (applyOneByOne [] ⟨u32Max - 1, zeroHash⟩ [zeroHash, zeroHash]).1.tip_height = u32Max ∧
    ((⟨u32Max - 1, zeroHash⟩ : CfHeaderChain).apply_batch (min (u32Max - 1 + 1) u32Max)
      [zeroHash, zeroHash] []).1.tip_height = 0 ∧
    (applyOneByOne [] ⟨u32Max - 1, zeroHash⟩ [zeroHash, zeroHash]).1.tip_height ≠
      ((⟨u32Max - 1, zeroHash⟩ : CfHeaderChain).apply_batch (min (u32Max - 1 + 1) u32Max)
        [zeroHash, zeroHash] []).1.tip_height := by
  decide

/-- C9 amended. Provided `tip_height + n ≤ u32::MAX` (no height reaches the
saturation/wrap boundary — see the counterexample for what happens there),
applying digests one at a time (size-1 batches at the matching contiguous
start heights, same checkpoint set) gives exactly the same outcome — final
`(tip_height, tip_hash)` and error, if any — as a single `apply_batch` of
the whole digest list. -/
theorem c9_one_by_one (cps : List (Nat × Hash)) :
    ∀ (ds : List Hash) (c : CfHeaderChain),
      c.tip_height + ds.length ≤ u32Max →
      applyOneByOne cps c ds = c.apply_batch (min (c.tip_height + 1) u32Max) ds cps := by
  intro ds
  induction ds with
  | nil =>
    intro c _
    simp [applyOneByOne, CfHeaderChain.apply_batch, CfHeaderChain.applyGo]
  | cons d rest ih =>
    intro c hb
    have htip : c.tip_height < u32Max := by
      simp only [List.length_cons] at hb; omega
    have hmin : min (c.tip_height + 1) u32Max = c.tip_height + 1 := by omega
    rw [applyOneByOne, hmin, CfHeaderChain.apply_batch, if_neg (by omega),
      CfHeaderChain.apply_batch, if_neg (by omega)]
    rcases applyGo_step cps d c (c.tip_height + 1) with ⟨_, hstop⟩ | ⟨_, hstep⟩
    · rw [hstop rest, hstop []]
    · rw [hstep rest, hstep []]
      show applyOneByOne cps ⟨c.tip_height + 1, hash256 (c.tip_hash ++ d)⟩ rest =
        CfHeaderChain.applyGo cps rest ⟨c.tip_height + 1, hash256 (c.tip_hash ++ d)⟩
          ((c.tip_height + 1 + 1) % u32Size)
      have hb2 : (⟨c.tip_height + 1, hash256 (c.tip_hash ++ d)⟩ :
          CfHeaderChain).tip_height + rest.length ≤ u32Max := by
        show c.tip_height + 1 + rest.length ≤ u32Max
        simp only [List.length_cons] at hb
        omega
      rw [ih ⟨c.tip_height + 1, hash256 (c.tip_hash ++ d)⟩ hb2]
      show (if _ then _ else CfHeaderChain.applyGo cps rest
          ⟨c.tip_height + 1, hash256 (c.tip_hash ++ d)⟩
          (min (c.tip_height + 1 + 1) u32Max)) = _
      rw [if_neg (by simp)]
      rcases rest with _ | ⟨d', rest'⟩
      · simp [CfHeaderChain.applyGo]
      · have hsz : u32Size = u32Max + 1 := rfl
        have hle : c.tip_height + 1 + 1 ≤ u32Max := by
          simp only [List.length_cons] at hb; omega
        rw [show min (c.tip_height + 1 + 1) u32Max = c.tip_height + 1 + 1 by omega,
          Nat.mod_eq_of_lt (by omega)]

/-- Witness for C9 at one digest from the initial state. -/
theorem c9_one_by_one_witness :
    applyOneByOne [] (CfHeaderChain.new_from_store none) [zeroHash] =
      (CfHeaderChain.new_from_store none).apply_batch
        (min ((CfHeaderChain.new_from_store none).tip_height + 1) u32Max) [zeroHash] [] :=
  c9_one_by_one [] [zeroHash] (CfHeaderChain.new_from_store none) (by decide)

/-! ## C3 — checkpoint mismatch -/

/-- Shifting the rolling fold across the first digest of a batch. -/
theorem fold_take_shift (x fh : Hash) (rest : List Hash) (k : Nat) (hk : 1 ≤ k) :
    foldDigests x ((fh :: rest).take k) =
      foldDigests (hash256 (x ++ fh)) (rest.take (k - 1)) := by
  obtain ⟨k', rfl⟩ : ∃ k', k = k' + 1 := ⟨k - 1, by omega⟩
  simp [List.take_succ_cons, foldDigests]

/-- The batch fold stops at the first mismatching checkpoint: if the first
checkpoint entry at height `ht` expects a value different from the computed
rolling hash while every checkpoint at the earlier batch heights matches, the
fold returns `CheckpointMismatch ht` with the tip left at height `ht - 1`. -/
theorem applyGo_first_mismatch (cps : List (Nat × Hash)) :
    ∀ (headers : List Hash) (c : CfHeaderChain) (ht : Nat) (exp : Hash),
      c.tip_height + headers.length ≤ u32Max →
      c.tip_height + 1 ≤ ht →
      ht < c.tip_height + 1 + headers.length →
      cps.find? (fun p => p.1 == ht) = some (ht, exp) →
      (∀ p ∈ cps, c.tip_height + 1 ≤ p.1 → p.1 < ht →
        p.2 = foldDigests c.tip_hash (headers.take (p.1 - c.tip_height))) →
      exp ≠ foldDigests c.tip_hash (headers.take (ht - c.tip_height)) →
      CfHeaderChain.applyGo cps headers c (c.tip_height + 1) =
        (⟨ht - 1, foldDigests c.tip_hash (headers.take (ht - 1 - c.tip_height))⟩,
          some (.checkpointMismatch ht)) := by
  intro headers
  induction headers with
  | nil =>
    intro c ht exp _ hlo hhi _ _ _
    simp only [List.length_nil] at hhi
    omega
  | cons fh rest ih =>
    intro c ht exp hb hlo hhi hfind hprev hmis
    by_cases hteq : ht = c.tip_height + 1
    · subst hteq
      rcases applyGo_step cps fh c (c.tip_height + 1) with ⟨_, hstop⟩ | ⟨hall, _⟩
      · rw [hstop rest]
        have h0 : c.tip_height + 1 - 1 - c.tip_height = 0 := by omega
        rw [h0, List.take_zero]
        rfl
      · exfalso
        have hx := hall exp hfind
        have h1 : c.tip_height + 1 - c.tip_height = 1 := by omega
        rw [h1, fold_take_shift c.tip_hash fh rest 1 le_rfl] at hmis
        simp [foldDigests] at hmis
        exact hmis hx.symm
    · have hgt : c.tip_height + 1 < ht := by omega
      rcases applyGo_step cps fh c (c.tip_height + 1) with ⟨⟨chk, hfind', hne⟩, _⟩ | ⟨_, hstep⟩
      · exfalso
        have hmem := List.mem_of_find?_eq_some hfind'
        have hval := hprev (c.tip_height + 1, chk) hmem (by omega) hgt
        have h1 : c.tip_height + 1 - c.tip_height = 1 := by omega
        rw [h1, fold_take_shift c.tip_hash fh rest 1 le_rfl] at hval
        simp [foldDigests] at hval
        exact hne hval.symm
      · rw [hstep rest]
        have hszlt : c.tip_height + 1 + 1 < u32Size := by
          have hsz : u32Size = u32Max + 1 := rfl
          simp only [List.length_cons] at hb hhi
          omega
        rw [Nat.mod_eq_of_lt hszlt]
        have hih := ih ⟨c.tip_height + 1, hash256 (c.tip_hash ++ fh)⟩ ht exp
          (by show c.tip_height + 1 + rest.length ≤ u32Max
              simp only [List.length_cons] at hb
              omega)
          (by show c.tip_height + 1 + 1 ≤ ht
              omega)
          (by show ht < c.tip_height + 1 + 1 + rest.length
              simp only [List.length_cons] at hhi
              omega)
          hfind
          (by intro p hp hple hplt
              have hple2 : c.tip_height + 1 + 1 ≤ p.1 := hple
              have hfrom := hprev p hp (by omega) hplt
              show p.2 = foldDigests (hash256 (c.tip_hash ++ fh))
                (rest.take (p.1 - (c.tip_height + 1)))
              rw [hfrom, fold_take_shift c.tip_hash fh rest (p.1 - c.tip_height) (by omega)]
              have harg : p.1 - c.tip_height - 1 = p.1 - (c.tip_height + 1) := by omega
              rw [harg])
          (by show exp ≠ foldDigests (hash256 (c.tip_hash ++ fh))
                (rest.take (ht - (c.tip_height + 1)))
              intro hbad
              apply hmis
              rw [fold_take_shift c.tip_hash fh rest (ht - c.tip_height) (by omega)]
              have harg : ht - c.tip_height - 1 = ht - (c.tip_height + 1) := by omega
              rw [harg]
              exact hbad)
        have hih' : CfHeaderChain.applyGo cps rest
            ⟨c.tip_height + 1, hash256 (c.tip_hash ++ fh)⟩ (c.tip_height + 1 + 1) =
            (⟨ht - 1, foldDigests (hash256 (c.tip_hash ++ fh))
                (rest.take (ht - 1 - (c.tip_height + 1)))⟩,
              some (.checkpointMismatch ht)) := hih
        rw [hih', fold_take_shift c.tip_hash fh rest (ht - 1 - c.tip_height) (by omega)]
        have harg : ht - 1 - c.tip_height - 1 = ht - 1 - (c.tip_height + 1) := by omega
        rw [harg]

/-- C3. If a checkpoint `(h, exp)` lies within a contiguous batch
(`start ≤ h < start + len`, `start = tip_height + 1`), every checkpoint at an
earlier batch height matches the computed rolling hash, and the rolling hash
computed at `h` differs from `exp`, then `apply_batch` returns
`CheckpointMismatch h` and leaves `(tip_height, tip_hash)` at the values of
height `h - 1` (the last successfully applied header), not advanced to `h`. -/
theorem c3_checkpoint_mismatch (c : CfHeaderChain) (headers : List Hash)
    (cps : List (Nat × Hash)) (h : Nat) (exp : Hash)
    (hbound : c.tip_height + headers.length ≤ u32Max)
    (hlo : c.tip_height + 1 ≤ h)
    (hhi : h < c.tip_height + 1 + headers.length)
    (hfind : cps.find? (fun p => p.1 == h) = some (h, exp))
    (hprev : ∀ p ∈ cps, c.tip_height + 1 ≤ p.1 → p.1 < h → p.2 = rollAt c headers p.1)
    (hmis : exp ≠ rollAt c headers h) :
    c.apply_batch (c.tip_height + 1) headers cps =
      (⟨h - 1, rollAt c headers (h - 1)⟩, some (.checkpointMismatch h)) := by
  have htip : c.tip_height < u32Max := by omega
  rw [CfHeaderChain.apply_batch, if_neg (by omega)]
  exact applyGo_first_mismatch cps headers c h exp hbound hlo hhi hfind hprev hmis

/-- Witness for C3: a two-digest batch from the initial state with a wrong
checkpoint pinned at height 2 fails with `CheckpointMismatch 2`, the tip left
at height 1. -/
theorem c3_checkpoint_mismatch_witness :
    (CfHeaderChain.mk 0 zeroHash).apply_batch 1 [zeroHash, zeroHash] [(2, zeroHash)] =
      (⟨1, rollAt (CfHeaderChain.mk 0 zeroHash) [zeroHash, zeroHash] 1⟩,
        some (.checkpointMismatch 2)) :=
  c3_checkpoint_mismatch (CfHeaderChain.mk 0 zeroHash) [zeroHash, zeroHash]
    [(2, zeroHash)] 2 zeroHash (by decide) (by decide) (by decide) (by decide)
    (by intro p hp hle hlt
        simp only [List.mem_singleton] at hp
        subst hp
        simp at hlt)
    (by decide)

/-! ## C8 — empty watchlist matcher -/

/-- C8. For every block hash and every raw filter, `filter_matches_any` with
an empty watch sequence returns `false` (not an error): the spec-modelled
`match_any` short-circuits both an empty filter and an empty query to
`false`, and the wrapper passes the empty script sequence through unchanged,
whatever the Golomb decoder would do. -/
theorem c8_empty_watch (golomb : Bytes → Option (Hash → Bytes → Bool))
    (block_hash : Hash) (raw_filter : Bytes) :
    filter_matches_any (bip158_match_any golomb) block_hash raw_filter [] = some false := by
  simp [filter_matches_any, bip158_match_any]

/-! ## C10 — Phase-A stop-height arithmetic -/

/-- C10 counterexample: with a persisted cf tip at height `u32::MAX - 10`
(so `next = u32::MAX - 9`) and `chain_tip = u32::MAX`, the loop is entered
(`next ≤ chain_tip`) yet `next + CFHEADERS_BATCH - 1` exceeds `u32::MAX` —
the stop-height expression overflows u32. In the wrap model the engine then
asks the header source for the wrapped height 1989, below `next`. -/
theorem c10_counterexample :
    4294967286 ≤ 4294967295 ∧ u32Max < stop_height_arg 4294967286 ∧
    (run_to_tip envC10 [] 1).1 =
      [Event.load_cf_tip, Event.tip_height_q, Event.hash_at_height 1989] := by
  refine ⟨by decide, by decide, ?_⟩
  decide

/-- C10 amended: the stop-height expression `next + CFHEADERS_BATCH - 1`
stays within u32 for every `next ≤ chain_tip` provided
`chain_tip ≤ 2^32 - CFHEADERS_BATCH`; at larger chain tips it overflows
(see the counterexample). -/
theorem c10_no_overflow (next chain_tip : Nat)
    (h1 : next ≤ chain_tip) (h2 : chain_tip ≤ u32Size - CFHEADERS_BATCH) :
    stop_height_arg next ≤ u32Max := by
  have hs : u32Size = 4294967296 := rfl
  have hm : u32Max = 4294967295 := rfl
  have hb : CFHEADERS_BATCH = 2000 := rfl
  simp only [stop_height_arg, hs, hm, hb] at *
  omega

/-- Witness for C10's amended bound at `next = 1`, `chain_tip = 5`. -/
theorem c10_no_overflow_witness : stop_height_arg 1 ≤ u32Max :=
  c10_no_overflow 1 5 (by decide) (by decide)

/-! ## C6 — idempotent second run -/

/-- Initializing from a stored pair always adopts its height (height 0 is
replaced by the identical fresh height 0). -/
theorem new_from_store_tip (t : Nat) (hh : Hash) :
    (CfHeaderChain.new_from_store (some (t, hh))).tip_height = t := by
  by_cases h : t > 0
  · simp [CfHeaderChain.new_from_store, h]
  · simp [CfHeaderChain.new_from_store, h]
    omega

/-- Phase A is a no-op when the next height is already past the chain tip. -/
theorem phaseALoop_done (env : Env) (cps : List (Nat × Hash)) (chain_tip : Nat)
    (fuel : Nat) (c : CfHeaderChain)
    (hdone : ¬ min (c.tip_height + 1) u32Max ≤ chain_tip) (hfuel : 1 ≤ fuel) :
    phaseALoop env cps chain_tip fuel c = ([], .ok c) := by
  obtain ⟨f, rfl⟩ : ∃ f, fuel = f + 1 := ⟨fuel - 1, by omega⟩
  simp only [phaseALoop]
  rw [if_neg hdone]

/-- C6 counterexample: at a persisted tip of `u32::MAX` with the chain tip
unchanged at `u32::MAX`, the saturating `next = u32::MAX` still satisfies
`next ≤ chain_tip`, so the second run re-enters Phase A: it performs a
`get_cfheaders` call (and, served empty batches, never returns ok — here the
fuel bound reports the livelock). -/
theorem c6_counterexample :
    (Event.get_cfheaders u32Max zeroHash ∈ (run_to_tip envC6max [] 1).1) ∧
    (run_to_tip envC6max [] 1).2 ≠ none := by
  refine ⟨?_, by decide⟩
  decide

/-- C6 amended: with no new chain progress (`tip_height()` returning the same
`t` as the populated store's cf tip and last-scanned marker) and `t` below
`u32::MAX`, a second `run_to_tip` returns ok and performs no `apply_batch`,
no `on_block_match`, and no `get_cfheaders`/`get_cfilter`/`get_block` call.
At `t = u32::MAX` the saturated contiguity arithmetic re-enters Phase A
instead (see the counterexample). -/
theorem c6_idempotent (env : Env) (cps : List (Nat × Hash)) (fuel t : Nat)
    (hh : Hash) (w : List Bytes)
    (hload : env.load_cf_tip = some (some (t, hh)))
    (htip : env.tip_height = some t)
    (hlast : env.get_last_scanned = some t)
    (hw : env.watchlist = some w)
    (hset : env.set_last_scanned t = some ())
    (ht : t < u32Max)
    (hfuel : 1 ≤ fuel) :
    (run_to_tip env cps fuel).2 = none ∧
    (run_to_tip env cps fuel).1.all (fun e => !c6Forbidden e) = true := by
  have hc0 : (CfHeaderChain.new_from_store (some (t, hh))).tip_height = t :=
    new_from_store_tip t hh
  have hpa : phaseALoop env cps t fuel (CfHeaderChain.new_from_store (some (t, hh))) =
      ([], .ok (CfHeaderChain.new_from_store (some (t, hh)))) :=
    phaseALoop_done env cps t fuel _ (by rw [hc0]; omega) hfuel
  simp only [run_to_tip, hload, htip, hpa, hlast, hw, hc0]
  rcases w with _ | ⟨s0, w'⟩
  · simp only [List.isEmpty_nil, if_true, hset]
    constructor
    · trivial
    · simp [c6Forbidden]
  · simp only [List.isEmpty_cons, if_false]
    have hsmod : (t + 1) % u32Size = t + 1 := by
      have hsz : u32Size = u32Max + 1 := rfl
      exact Nat.mod_eq_of_lt (by omega)
    rw [hsmod]
    have hrange : List.range' (t + 1) (t + 1 - (t + 1)) = [] := by
      rw [Nat.sub_self]
      rfl
    rw [hrange]
    constructor
    · rfl
    · simp [scanLoop, c6Forbidden]

/-- Witness for the amended C6 at `t = 3`. -/
theorem c6_idempotent_witness :
    (run_to_tip envC6 [] 1).2 = none ∧
    (run_to_tip envC6 [] 1).1.all (fun e => !c6Forbidden e) = true :=
  c6_idempotent envC6 [] 1 3 zeroHash [[1]] rfl rfl rfl rfl rfl (by decide) (by decide)

/-! ## C7 — empty watchlist fast-forward -/

/-- Every event Phase A emits is a header-hash query, a cfheaders fetch, an
`apply_batch` call or a cf-tip save. -/
theorem phaseALoop_events (env : Env) (cps : List (Nat × Hash)) (ct : Nat) :
    ∀ (fuel : Nat) (c : CfHeaderChain) (e : Event),
      e ∈ (phaseALoop env cps ct fuel c).1 →
      (∃ h, e = .hash_at_height h) ∨ (∃ s hh, e = .get_cfheaders s hh) ∨
      (∃ s, e = .apply_batch_call s) ∨ (∃ h hh, e = .save_cf_tip h hh) := by
  intro fuel
  induction fuel with
  | zero =>
    intro c e he
    simp [phaseALoop] at he
  | succ f ih =>
    intro c e he
    simp only [phaseALoop] at he
    split at he
    · split at he
      · simp at he
        subst he
        exact Or.inl ⟨_, rfl⟩
      · split at he
        · simp at he
          rcases he with rfl | rfl
          · exact Or.inl ⟨_, rfl⟩
          · exact Or.inr (Or.inl ⟨_, _, rfl⟩)
        · split at he
          · simp at he
            rcases he with rfl | rfl | rfl
            · exact Or.inl ⟨_, rfl⟩
            · exact Or.inr (Or.inl ⟨_, _, rfl⟩)
            · exact Or.inr (Or.inr (Or.inl ⟨_, rfl⟩))
          · split at he
            · simp at he
              rcases he with rfl | rfl | rfl | rfl
              · exact Or.inl ⟨_, rfl⟩
              · exact Or.inr (Or.inl ⟨_, _, rfl⟩)
              · exact Or.inr (Or.inr (Or.inl ⟨_, rfl⟩))
              · exact Or.inr (Or.inr (Or.inr ⟨_, _, rfl⟩))
            · simp at he
              rcases he with rfl | rfl | rfl | rfl | hrest
              · exact Or.inl ⟨_, rfl⟩
              · exact Or.inr (Or.inl ⟨_, _, rfl⟩)
              · exact Or.inr (Or.inr (Or.inl ⟨_, rfl⟩))
              · exact Or.inr (Or.inr (Or.inr ⟨_, _, rfl⟩))
              · exact ih _ _ hrest
    · simp at he

/-- A Phase-A trace never contains `on_block_match`, `get_cfilter` or
`get_block`. -/
theorem phaseALoop_c7_free (env : Env) (cps : List (Nat × Hash)) (ct fuel : Nat)
    (c : CfHeaderChain) :
    (phaseALoop env cps ct fuel c).1.all (fun e => !c7Forbidden e) = true := by
  rw [List.all_eq_true]
  intro e he
  rcases phaseALoop_events env cps ct fuel c e he with
    ⟨h, rfl⟩ | ⟨s, hh, rfl⟩ | ⟨s, rfl⟩ | ⟨h, hh, rfl⟩ <;> rfl

/-- Concatenation of c7-clean traces is c7-clean. -/
theorem all_c7_concat (pre trA post : List Event)
    (hpre : pre.all (fun e => !c7Forbidden e) = true)
    (hA : trA.all (fun e => !c7Forbidden e) = true)
    (hpost : post.all (fun e => !c7Forbidden e) = true) :
    ((pre ++ trA) ++ post).all (fun e => !c7Forbidden e) = true := by
  simp only [List.all_append]
  simp [hpre, hA, hpost]

/-- C7. If the watchlist is empty, a run never invokes `on_block_match`,
`get_cfilter` or `get_block`; and when it returns ok its very last store
write is `set_last_scanned e` for `e` the Phase-A end height (the
CfHeaderChain tip at the end of Phase A). -/
theorem c7_empty_watchlist (env : Env) (cps : List (Nat × Hash)) (fuel : Nat)
    (hw : env.watchlist = some []) :
    (run_to_tip env cps fuel).1.all (fun e => !c7Forbidden e) = true ∧
    ((run_to_tip env cps fuel).2 = none →
      ∃ l e, (run_to_tip env cps fuel).1 = l ++ [Event.set_last_scanned e] ∧
        phaseATip env cps fuel = some e) := by
  rcases hload : env.load_cf_tip with _ | cf_tip
  · simp only [run_to_tip, hload]
    exact ⟨rfl, fun h => Option.noConfusion h⟩
  · rcases htip : env.tip_height with _ | ct
    · simp only [run_to_tip, hload, htip]
      exact ⟨rfl, fun h => Option.noConfusion h⟩
    · rcases hpa : phaseALoop env cps ct fuel (CfHeaderChain.new_from_store cf_tip)
        with ⟨trA, rA⟩
      have hAfree : trA.all (fun e => !c7Forbidden e) = true := by
        have := phaseALoop_c7_free env cps ct fuel (CfHeaderChain.new_from_store cf_tip)
        rw [hpa] at this
        exact this
      rcases rA with eA | c
      · simp only [run_to_tip, hload, htip, hpa]
        constructor
        · simpa using all_c7_concat [Event.load_cf_tip, Event.tip_height_q] trA [] rfl hAfree rfl
        · intro h
          exact Option.noConfusion h
      · rcases hlast : env.get_last_scanned with _ | last
        · simp only [run_to_tip, hload, htip, hpa, hlast]
          constructor
          · simpa using all_c7_concat [Event.load_cf_tip, Event.tip_height_q] trA
              [Event.get_last_scanned] rfl hAfree rfl
          · intro h
            exact Option.noConfusion h
        · rcases hset : env.set_last_scanned c.tip_height with _ | u
          · simp only [run_to_tip, hload, htip, hpa, hlast, hw, List.isEmpty_nil,
              if_true, hset]
            constructor
            · simpa using all_c7_concat [Event.load_cf_tip, Event.tip_height_q] trA
                [Event.get_last_scanned, Event.watchlist_q,
                 Event.set_last_scanned c.tip_height] rfl hAfree rfl
            · intro h
              exact Option.noConfusion h
          · simp only [run_to_tip, hload, htip, hpa, hlast, hw, List.isEmpty_nil,
              if_true, hset]
            constructor
            · simpa using all_c7_concat [Event.load_cf_tip, Event.tip_height_q] trA
                [Event.get_last_scanned, Event.watchlist_q,
                 Event.set_last_scanned c.tip_height] rfl hAfree rfl
            · intro _
              refine ⟨[Event.load_cf_tip, Event.tip_height_q] ++ trA ++
                [Event.get_last_scanned, Event.watchlist_q], c.tip_height, ?_, ?_⟩
              · simp
              · simp only [phaseATip, hload, htip, hpa]

/-- Witness for C7 at a populated store with chain tip 3 and empty
watchlist. -/
theorem c7_empty_watchlist_witness :
    (run_to_tip envC7 [] 1).1.all (fun e => !c7Forbidden e) = true ∧
    ((run_to_tip envC7 [] 1).2 = none →
      ∃ l e, (run_to_tip envC7 [] 1).1 = l ++ [Event.set_last_scanned e] ∧
        phaseATip envC7 [] 1 = some e) :=
  c7_empty_watchlist envC7 [] 1 rfl

/-! ## C2 — hit delivery before persistence, in ascending height order

The machinery below decomposes any trace split around a distinguished event
(`cons_append_split`), builds the three ordering predicates for elementary
traces and closes them under concatenation, and localizes Phase-B events to
their heights.
-/

/-- Splitting a concatenation around a distinguished element. -/
theorem cons_append_split {α : Type} {X Y l1 l2 : List α} {b : α}
    (hs : X ++ Y = l1 ++ b :: l2) :
    (∃ t, X = l1 ++ b :: t ∧ l2 = t ++ Y) ∨
    (∃ u, l1 = X ++ u ∧ Y = u ++ b :: l2) := by
  rcases List.append_eq_append_iff.mp hs with ⟨a', ha1, ha2⟩ | ⟨c', hc1, hc2⟩
  · exact Or.inr ⟨a', ha1, ha2⟩
  · rcases c' with _ | ⟨x, t⟩
    · refine Or.inr ⟨[], by simpa using hc1.symm, by simpa using hc2.symm⟩
    · simp only [List.cons_append, List.cons.injEq] at hc2
      obtain ⟨hbx, hl2⟩ := hc2
      subst hbx
      exact Or.inl ⟨t, hc1, hl2⟩

/-- An event flagged `obmAt h` carries scan height `h`. -/
theorem evScan_of_obmAt {h : Nat} {e : Event} (he : obmAt h e = true) :
    evScanHeight e = some h := by
  cases e <;> simp_all [obmAt, evScanHeight]

/-- An event flagged `obmBad h` carries scan height `h`. -/
theorem evScan_of_obmBad {h : Nat} {e : Event} (he : obmBad h e = true) :
    evScanHeight e = some h := by
  cases e <;> simp_all [obmBad, evScanHeight]

/-- `MatchBeforePersist` holds vacuously for the empty trace. -/
theorem mbp_nil : MatchBeforePersist [] := by
  intro h l1 l2 hsplit
  exact absurd hsplit.symm (by simp)

/-- `MatchBeforePersist` holds for traces with no `set_last_scanned`. -/
theorem mbp_of_no_sls (X : List Event)
    (hX : ∀ h, Event.set_last_scanned h ∉ X) : MatchBeforePersist X := by
  intro h l1 l2 hsplit
  refine absurd ?_ (hX h)
  rw [hsplit]
  exact List.mem_append_right _ (List.mem_cons_self _ _)

/-- `MatchBeforePersist` holds for a lone persist event. -/
theorem mbp_sls_single (h0 : Nat) :
    MatchBeforePersist [Event.set_last_scanned h0] := by
  intro h l1 l2 hsplit
  rcases l1 with _ | ⟨x, t⟩
  · simp only [List.nil_append, List.cons.injEq] at hsplit
    refine ⟨fun e he => absurd he (List.not_mem_nil e), ?_⟩
    rw [← hsplit.2]
    exact fun e he => absurd he (List.not_mem_nil e)
  · simp at hsplit

/-- Concatenation preserves `MatchBeforePersist` when no height's match
events sit on the wrong side of its persist event. -/
theorem mbp_append {X Y : List Event}
    (hX : MatchBeforePersist X) (hY : MatchBeforePersist Y)
    (hXY : ∀ h, Event.set_last_scanned h ∈ X → ∀ e ∈ Y, obmAt h e = false)
    (hYX : ∀ h, Event.set_last_scanned h ∈ Y → ∀ e ∈ X, obmBad h e = false) :
    MatchBeforePersist (X ++ Y) := by
  intro h l1 l2 hsplit
  rcases cons_append_split hsplit with ⟨t, hXeq, hl2⟩ | ⟨u, hl1, hYeq⟩
  · obtain ⟨hgood, hnone⟩ := hX h l1 t hXeq
    have hsmem : Event.set_last_scanned h ∈ X := by
      rw [hXeq]
      exact List.mem_append_right _ (List.mem_cons_self _ _)
    refine ⟨hgood, ?_⟩
    intro e hemem
    rw [hl2] at hemem
    rcases List.mem_append.mp hemem with hin | hin
    · exact hnone e hin
    · exact hXY h hsmem e hin
  · obtain ⟨hgood, hnone⟩ := hY h u l2 hYeq
    have hsmem : Event.set_last_scanned h ∈ Y := by
      rw [hYeq]
      exact List.mem_append_right _ (List.mem_cons_self _ _)
    refine ⟨?_, hnone⟩
    intro e hemem
    rw [hl1] at hemem
    rcases List.mem_append.mp hemem with hin | hin
    · exact hYX h hsmem e hin
    · exact hgood e hin

/-- `NoHitNoCall` holds vacuously for the empty trace. -/
theorem nhnc_nil : NoHitNoCall [] := by
  intro h l1 l2 hsplit
  exact absurd hsplit.symm (by simp)

/-- `NoHitNoCall` extends across a leading event that is no false verdict. -/
theorem nhnc_cons (e : Event) (tr : List Event)
    (he : ∀ h', e ≠ Event.match_res h' (some false))
    (htr : NoHitNoCall tr) : NoHitNoCall (e :: tr) := by
  intro h l1 l2 hsplit
  rcases l1 with _ | ⟨x, t⟩
  · simp only [List.nil_append, List.cons.injEq] at hsplit
    exact absurd hsplit.1 (he h)
  · simp only [List.cons_append, List.cons.injEq] at hsplit
    exact htr h t l2 hsplit.2

/-- `NoHitNoCall` holds when a false verdict is directly followed by its
persist event. -/
theorem nhnc_pair (h0 : Nat) (tr : List Event)
    (htr : NoHitNoCall (Event.set_last_scanned h0 :: tr)) :
    NoHitNoCall (Event.match_res h0 (some false) :: Event.set_last_scanned h0 :: tr) := by
  intro h l1 l2 hsplit
  rcases l1 with _ | ⟨x, t⟩
  · simp only [List.nil_append, List.cons.injEq] at hsplit
    obtain ⟨heq, hl2⟩ := hsplit
    injection heq with hh _
    subst hh
    exact ⟨tr, hl2.symm⟩
  · simp only [List.cons_append, List.cons.injEq] at hsplit
    exact htr h t l2 hsplit.2

/-- `NoHitNoCall` holds for traces with no false verdict at all. -/
theorem nhnc_of_no_mres (X : List Event)
    (hX : ∀ h, Event.match_res h (some false) ∉ X) : NoHitNoCall X := by
  intro h l1 l2 hsplit
  refine absurd ?_ (hX h)
  rw [hsplit]
  exact List.mem_append_right _ (List.mem_cons_self _ _)

/-- `NoHitNoCall` is closed under concatenation (a false verdict is never
the last event of a trace satisfying it). -/
theorem nhnc_append {X Y : List Event} (hX : NoHitNoCall X) (hY : NoHitNoCall Y) :
    NoHitNoCall (X ++ Y) := by
  intro h l1 l2 hsplit
  rcases cons_append_split hsplit with ⟨t, hXeq, hl2⟩ | ⟨u, hl1, hYeq⟩
  · obtain ⟨l3, hl3⟩ := hX h l1 t hXeq
    exact ⟨l3 ++ Y, by rw [hl2, hl3, List.cons_append]⟩
  · obtain ⟨l3, hl3⟩ := hY h u l2 hYeq
    exact ⟨l3, hl3⟩

/-- `HitDelivered` holds for traces with no true verdict. -/
theorem hd_of_no_mres (X : List Event)
    (hX : ∀ h, Event.match_res h (some true) ∉ X) : HitDelivered X := by
  intro h l1 l2 hsplit
  refine absurd ?_ (hX h)
  rw [hsplit]
  exact List.mem_append_right _ (List.mem_cons_self _ _)

/-- `HitDelivered` extends across a leading event that is no true verdict. -/
theorem hd_cons (e : Event) (tr : List Event)
    (he : ∀ h', e ≠ Event.match_res h' (some true))
    (htr : HitDelivered tr) : HitDelivered (e :: tr) := by
  intro h l1 l2 hsplit
  rcases l1 with _ | ⟨x, t⟩
  · simp only [List.nil_append, List.cons.injEq] at hsplit
    exact absurd hsplit.1 (he h)
  · simp only [List.cons_append, List.cons.injEq] at hsplit
    exact htr h t l2 hsplit.2

/-- `HitDelivered` for a trace beginning with the true verdict itself. -/
theorem hd_entry (h0 : Nat) (tail : List Event)
    (htail_inner : ∀ l3 l4, tail = l3 ++ Event.set_last_scanned h0 :: l4 →
      ∃ bh, Event.on_block_match h0 bh true ∈ l3)
    (htail_hd : HitDelivered tail) :
    HitDelivered (Event.match_res h0 (some true) :: tail) := by
  intro h l1 l2 hsplit
  rcases l1 with _ | ⟨x, t⟩
  · simp only [List.nil_append, List.cons.injEq] at hsplit
    obtain ⟨heq, hl2⟩ := hsplit
    injection heq with hh _
    subst hh
    intro l3 l4 hinner
    exact htail_inner l3 l4 (hl2 ▸ hinner)
  · simp only [List.cons_append, List.cons.injEq] at hsplit
    exact htail_hd h t l2 hsplit.2

/-- A list without persist events admits no split around one. -/
theorem no_sls_split {l2 l3 l4 : List Event} {h : Nat}
    (hno : ∀ e ∈ l2, isSls e = false)
    (hsplit : l2 = l3 ++ Event.set_last_scanned h :: l4) : False := by
  have hmem : Event.set_last_scanned h ∈ l2 := by
    rw [hsplit]
    exact List.mem_append_right _ (List.mem_cons_self _ _)
  have := hno _ hmem
  simp [isSls] at this

/-- `HitDelivered` is closed under concatenation when no true verdict of the
left part has its persist event in the right part. -/
theorem hd_append {X Y : List Event} (hX : HitDelivered X) (hY : HitDelivered Y)
    (hcross : ∀ h, Event.match_res h (some true) ∈ X →
      Event.set_last_scanned h ∉ Y) :
    HitDelivered (X ++ Y) := by
  intro h l1 l2 hsplit
  rcases cons_append_split hsplit with ⟨t, hXeq, hl2⟩ | ⟨u, hl1, hYeq⟩
  · intro l3 l4 hinner
    rw [hl2] at hinner
    rcases cons_append_split hinner with ⟨t2, hteq, hl4⟩ | ⟨u2, hl3, hYeq2⟩
    · obtain ⟨bh, hbh⟩ := hX h l1 t hXeq l3 t2 hteq
      exact ⟨bh, hbh⟩
    · exfalso
      have hmem : Event.match_res h (some true) ∈ X := by
        rw [hXeq]
        exact List.mem_append_right _ (List.mem_cons_self _ _)
      have hsls : Event.set_last_scanned h ∈ Y := by
        rw [hYeq2]
        exact List.mem_append_right _ (List.mem_cons_self _ _)
      exact hcross h hmem hsls
  · intro l3 l4 hinner
    exact hY h u l2 hYeq l3 l4 hinner

/-- Every event of one scan step is either height-free or about this step's
height. -/
theorem scanHeight_local (env : Env) (w : List Bytes) (h : Nat) :
    ∀ e ∈ (scanHeight env w h).1, evScanHeight e = none ∨ evScanHeight e = some h := by
  intro e he
  simp only [scanHeight] at he
  split at he
  · simp at he
    subst he
    exact Or.inl rfl
  · split at he
    · simp at he
      rcases he with rfl | rfl <;> exact Or.inl rfl
    · split at he
      · simp at he
        rcases he with rfl | rfl | rfl
        · exact Or.inl rfl
        · exact Or.inl rfl
        · exact Or.inr rfl
      · simp at he
        rcases he with rfl | rfl | rfl | rfl
        · exact Or.inl rfl
        · exact Or.inl rfl
        · exact Or.inr rfl
        · exact Or.inr rfl
      · split at he
        · simp at he
          rcases he with rfl | rfl | rfl | rfl
          · exact Or.inl rfl
          · exact Or.inl rfl
          · exact Or.inr rfl
          · exact Or.inl rfl
        · split at he
          · simp at he
            rcases he with rfl | rfl | rfl | rfl
            · exact Or.inl rfl
            · exact Or.inl rfl
            · exact Or.inr rfl
            · exact Or.inl rfl
          · split at he
            · simp at he
              rcases he with rfl | rfl | rfl | rfl | rfl
              · exact Or.inl rfl
              · exact Or.inl rfl
              · exact Or.inr rfl
              · exact Or.inl rfl
              · exact Or.inr rfl
            · simp at he
              rcases he with rfl | rfl | rfl | rfl | rfl | rfl
              · exact Or.inl rfl
              · exact Or.inl rfl
              · exact Or.inr rfl
              · exact Or.inl rfl
              · exact Or.inr rfl
              · exact Or.inr rfl

/-- One scan step satisfies `MatchBeforePersist`: its persist event, when
present, is last, after a successful delivery if there was a hit. -/
theorem scanHeight_mbp (env : Env) (w : List Bytes) (h : Nat) :
    MatchBeforePersist (scanHeight env w h).1 := by
  simp only [scanHeight]
  split
  · exact mbp_of_no_sls _ (by intro h' hmem; simp at hmem)
  · split
    · exact mbp_of_no_sls _ (by intro h' hmem; simp at hmem)
    · split
      · exact mbp_of_no_sls _ (by intro h' hmem; simp at hmem)
      · refine @mbp_append [Event.hash_at_height h, Event.get_cfilter _,
          Event.match_res h (some false)] [Event.set_last_scanned h]
          (mbp_of_no_sls _ (by intro h' hmem; simp at hmem)) (mbp_sls_single h) ?_ ?_
        · intro h' hmem
          simp at hmem
        · intro h' _ e hemem
          simp only [List.mem_cons, List.not_mem_nil, or_false] at hemem
          rcases hemem with rfl | rfl | rfl <;> simp [obmBad]
      · split
        · exact mbp_of_no_sls _ (by intro h' hmem; simp at hmem)
        · split
          · exact mbp_of_no_sls _ (by intro h' hmem; simp at hmem)
          · split
            · exact mbp_of_no_sls _ (by intro h' hmem; simp at hmem)
            · refine @mbp_append [Event.hash_at_height h, Event.get_cfilter _,
                Event.match_res h (some true), Event.get_block _,
                Event.on_block_match h _ true] [Event.set_last_scanned h]
                (mbp_of_no_sls _ (by intro h' hmem; simp at hmem)) (mbp_sls_single h) ?_ ?_
              · intro h' hmem
                simp at hmem
              · intro h' _ e hemem
                simp only [List.mem_cons, List.not_mem_nil, or_false] at hemem
                rcases hemem with rfl | rfl | rfl | rfl | rfl <;> simp [obmBad]

/-- One scan step satisfies `NoHitNoCall`: a false verdict is immediately
followed by the persist event. -/
theorem scanHeight_nhnc (env : Env) (w : List Bytes) (h : Nat) :
    NoHitNoCall (scanHeight env w h).1 := by
  simp only [scanHeight]
  split
  · exact nhnc_cons _ _ (fun h' heq => by simp at heq) nhnc_nil
  · split
    · exact nhnc_cons _ _ (fun h' heq => by simp at heq)
        (nhnc_cons _ _ (fun h' heq => by simp at heq) nhnc_nil)
    · split
      · exact nhnc_cons _ _ (fun h' heq => by simp at heq)
          (nhnc_cons _ _ (fun h' heq => by simp at heq)
            (nhnc_cons _ _ (fun h' heq => by simp at heq) nhnc_nil))
      · exact nhnc_cons _ _ (fun h' heq => by simp at heq)
          (nhnc_cons _ _ (fun h' heq => by simp at heq)
            (nhnc_pair h _ (nhnc_cons _ _ (fun h' heq => by simp at heq) nhnc_nil)))
      · split
        · exact nhnc_cons _ _ (fun h' heq => by simp at heq)
            (nhnc_cons _ _ (fun h' heq => by simp at heq)
              (nhnc_cons _ _ (fun h' heq => by simp at heq)
                (nhnc_cons _ _ (fun h' heq => by simp at heq) nhnc_nil)))
        · split
          · exact nhnc_cons _ _ (fun h' heq => by simp at heq)
              (nhnc_cons _ _ (fun h' heq => by simp at heq)
                (nhnc_cons _ _ (fun h' heq => by simp at heq)
                  (nhnc_cons _ _ (fun h' heq => by simp at heq) nhnc_nil)))
          · split
            · exact nhnc_cons _ _ (fun h' heq => by simp at heq)
                (nhnc_cons _ _ (fun h' heq => by simp at heq)
                  (nhnc_cons _ _ (fun h' heq => by simp at heq)
                    (nhnc_cons _ _ (fun h' heq => by simp at heq)
                      (nhnc_cons _ _ (fun h' heq => by simp at heq) nhnc_nil))))
            · exact nhnc_cons _ _ (fun h' heq => by simp at heq)
                (nhnc_cons _ _ (fun h' heq => by simp at heq)
                  (nhnc_cons _ _ (fun h' heq => by simp at heq)
                    (nhnc_cons _ _ (fun h' heq => by simp at heq)
                      (nhnc_cons _ _ (fun h' heq => by simp at heq)
                        (nhnc_cons _ _ (fun h' heq => by simp at heq) nhnc_nil)))))

/-- One scan step satisfies `HitDelivered`: a persisted hit was delivered. -/
theorem scanHeight_hd (env : Env) (w : List Bytes) (h : Nat) :
    HitDelivered (scanHeight env w h).1 := by
  simp only [scanHeight]
  split
  · exact hd_of_no_mres _ (by intro h' hmem; simp at hmem)
  · split
    · exact hd_of_no_mres _ (by intro h' hmem; simp at hmem)
    · split
      · exact hd_of_no_mres _ (by intro h' hmem; simp at hmem)
      · exact hd_of_no_mres _ (by intro h' hmem; simp at hmem)
      · split
        · refine hd_cons _ _ (fun h' heq => by simp at heq)
            (hd_cons _ _ (fun h' heq => by simp at heq)
              (hd_entry h [Event.get_block _] ?_
                (hd_of_no_mres _ (by intro h' hmem; simp at hmem))))
          intro l3 l4 hinner
          exact absurd hinner (by
            intro hsp
            exact @no_sls_split [Event.get_block _] _ _ _
              (by intro e he; simp at he; subst he; rfl) hsp)
        · split
          · refine hd_cons _ _ (fun h' heq => by simp at heq)
              (hd_cons _ _ (fun h' heq => by simp at heq)
                (hd_entry h [Event.get_block _] ?_
                  (hd_of_no_mres _ (by intro h' hmem; simp at hmem))))
            intro l3 l4 hinner
            exact absurd hinner (by
              intro hsp
              exact @no_sls_split [Event.get_block _] _ _ _
                (by intro e he; simp at he; subst he; rfl) hsp)
          · split
            · refine hd_cons _ _ (fun h' heq => by simp at heq)
                (hd_cons _ _ (fun h' heq => by simp at heq)
                  (hd_entry h [Event.get_block _, Event.on_block_match h _ false] ?_
                    (hd_of_no_mres _ (by intro h' hmem; simp at hmem))))
              intro l3 l4 hinner
              exact absurd hinner (by
                intro hsp
                exact @no_sls_split [Event.get_block _, Event.on_block_match h _ false] _ _ _
                  (by intro e he
                      simp only [List.mem_cons, List.not_mem_nil, or_false] at he
                      rcases he with rfl | rfl <;> rfl) hsp)
            · refine hd_cons _ _ (fun h' heq => by simp at heq)
                (hd_cons _ _ (fun h' heq => by simp at heq)
                  (hd_entry h [Event.get_block _, Event.on_block_match h _ true,
                    Event.set_last_scanned h] ?_
                    (hd_of_no_mres _ (by intro h' hmem; simp at hmem))))
              intro l3 l4 hinner
              rcases l3 with _ | ⟨x1, l3⟩
              · simp at hinner
              · rcases l3 with _ | ⟨x2, l3⟩
                · simp at hinner
                · rcases l3 with _ | ⟨x3, l3⟩
                  · simp only [List.cons_append, List.nil_append,
                      List.cons.injEq] at hinner
                    obtain ⟨rfl, rfl, _⟩ := hinner
                    exact ⟨_, List.mem_cons_of_mem _ (List.mem_cons_self _ _)⟩
                  · simp at hinner

/-- Every event of the scan loop is height-free or about one of its
heights. -/
theorem scanLoop_local (env : Env) (w : List Bytes) :
    ∀ (hs : List Nat) (e : Event), e ∈ (scanLoop env w hs).1 →
      evScanHeight e = none ∨ ∃ h ∈ hs, evScanHeight e = some h := by
  intro hs
  induction hs with
  | nil =>
    intro e he
    simp [scanLoop] at he
  | cons h rest ih =>
    intro e he
    simp only [scanLoop] at he
    split at he
    · rcases scanHeight_local env w h e he with hn | hsome
      · exact Or.inl hn
      · exact Or.inr ⟨h, List.mem_cons_self _ _, hsome⟩
    · simp only [List.mem_append] at he
      rcases he with hin | hin
      · rcases scanHeight_local env w h e hin with hn | hsome
        · exact Or.inl hn
        · exact Or.inr ⟨h, List.mem_cons_self _ _, hsome⟩
      · rcases ih e hin with hn | ⟨h2, hmem2, hsome2⟩
        · exact Or.inl hn
        · exact Or.inr ⟨h2, List.mem_cons_of_mem _ hmem2, hsome2⟩

/-- The scan loop over strictly ascending heights satisfies
`MatchBeforePersist`. -/
theorem scanLoop_mbp (env : Env) (w : List Bytes) :
    ∀ (hs : List Nat), List.Pairwise (· < ·) hs →
      MatchBeforePersist (scanLoop env w hs).1 := by
  intro hs
  induction hs with
  | nil => intro _; exact mbp_nil
  | cons h rest ih =>
    intro hpw
    obtain ⟨hlt, hpw'⟩ := List.pairwise_cons.mp hpw
    simp only [scanLoop]
    split
    · exact scanHeight_mbp env w h
    · refine mbp_append (scanHeight_mbp env w h) (ih hpw') ?_ ?_
      · intro h' hsls e hemem
        have hh' : h' = h := by
          rcases scanHeight_local env w h _ hsls with hn | hsome
          · simp [evScanHeight] at hn
          · simpa [evScanHeight] using hsome
        subst hh'
        by_contra hobm
        have hobm' : obmAt h' e = true := by
          cases hx : obmAt h' e
          · exact absurd hx hobm
          · rfl
        have hev := evScan_of_obmAt hobm'
        rcases scanLoop_local env w rest e hemem with hn | ⟨h2, hmem2, hsome2⟩
        · rw [hev] at hn
          exact Option.noConfusion hn
        · rw [hev] at hsome2
          have heq2 : h' = h2 := by simpa using hsome2
          subst heq2
          exact absurd (hlt _ hmem2) (lt_irrefl _)
      · intro h' hsls e hemem
        have hh' : h' ∈ rest := by
          rcases scanLoop_local env w rest _ hsls with hn | ⟨h2, hmem2, hsome2⟩
          · simp [evScanHeight] at hn
          · have heq : h' = h2 := by simpa [evScanHeight] using hsome2
            rw [heq]
            exact hmem2
        by_contra hbad
        have hbad' : obmBad h' e = true := by
          cases hx : obmBad h' e
          · exact absurd hx hbad
          · rfl
        have hev := evScan_of_obmBad hbad'
        rcases scanHeight_local env w h e hemem with hn | hsome
        · rw [hev] at hn
          exact Option.noConfusion hn
        · rw [hev] at hsome
          have hhh : h' = h := by simpa using hsome
          exact absurd (hlt _ (hhh ▸ hh')) (lt_irrefl _)

/-- The scan loop satisfies `NoHitNoCall`. -/
theorem scanLoop_nhnc (env : Env) (w : List Bytes) :
    ∀ (hs : List Nat), NoHitNoCall (scanLoop env w hs).1 := by
  intro hs
  induction hs with
  | nil => exact nhnc_nil
  | cons h rest ih =>
    simp only [scanLoop]
    split
    · exact scanHeight_nhnc env w h
    · exact nhnc_append (scanHeight_nhnc env w h) ih

/-- The scan loop over strictly ascending heights satisfies
`HitDelivered`. -/
theorem scanLoop_hd (env : Env) (w : List Bytes) :
    ∀ (hs : List Nat), List.Pairwise (· < ·) hs →
      HitDelivered (scanLoop env w hs).1 := by
  intro hs
  induction hs with
  | nil => intro _; exact hd_of_no_mres _ (by intro h' hmem; simp [scanLoop] at hmem)
  | cons h rest ih =>
    intro hpw
    obtain ⟨hlt, hpw'⟩ := List.pairwise_cons.mp hpw
    simp only [scanLoop]
    split
    · exact scanHeight_hd env w h
    · refine hd_append (scanHeight_hd env w h) (ih hpw') ?_
      intro h' hmem hsls
      have hh' : h' = h := by
        rcases scanHeight_local env w h _ hmem with hn | hsome
        · simp [evScanHeight] at hn
        · simpa [evScanHeight] using hsome
      subst hh'
      rcases scanLoop_local env w rest _ hsls with hn | ⟨h2, hmem2, hsome2⟩
      · simp [evScanHeight] at hn
      · have : h' = h2 := by simpa [evScanHeight] using hsome2
        subst this
        exact absurd (hlt _ hmem2) (lt_irrefl _)

/-- The `on_block_match` heights of one scan step form a sublist of the
singleton of its height. -/
theorem scanHeight_obmH (env : Env) (w : List Bytes) (h : Nat) :
    (obmHeights (scanHeight env w h).1).Sublist [h] := by
  simp only [scanHeight]
  split
  · simp [obmHeights]
  · split
    · simp [obmHeights]
    · split
      · simp [obmHeights]
      · simp [obmHeights]
      · split
        · simp [obmHeights]
        · split
          · simp [obmHeights]
          · split
            · simp [obmHeights]
            · simp [obmHeights]

/-- The `on_block_match` heights of the scan loop form a sublist of its
height list. -/
theorem scanLoop_obmH (env : Env) (w : List Bytes) :
    ∀ (hs : List Nat), (obmHeights (scanLoop env w hs).1).Sublist hs := by
  intro hs
  induction hs with
  | nil => simp [scanLoop, obmHeights]
  | cons h rest ih =>
    simp only [scanLoop]
    split
    · exact (scanHeight_obmH env w h).trans (by simp)
    · have : obmHeights ((scanHeight env w h).1 ++ (scanLoop env w rest).1) =
          obmHeights (scanHeight env w h).1 ++ obmHeights (scanLoop env w rest).1 := by
        simp [obmHeights]
      rw [this]
      exact (scanHeight_obmH env w h).append ih

/-- `MatchBeforePersist` holds outright for traces with no delivery events. -/
theorem mbp_of_no_obm (X : List Event)
    (hX : ∀ h' e, e ∈ X → obmAt h' e = false) : MatchBeforePersist X := by
  intro h l1 l2 hsplit
  constructor
  · intro e he
    have hx := hX h e (by rw [hsplit]; exact List.mem_append_left _ he)
    cases e <;> simp_all [obmAt, obmBad]
  · intro e he
    exact hX h e (by rw [hsplit]; exact List.mem_append_right _ (List.mem_cons_of_mem _ he))

/-- All four C2 trace properties hold for a trace with no delivery and no
verdict events (Phase A, store/headers queries, fast-forward persists). -/
theorem c2_props_of_clean (T : List Event)
    (hT : ∀ e ∈ T, isObmOrMres e = false) :
    List.Pairwise (· < ·) (obmHeights T) ∧ MatchBeforePersist T ∧
      NoHitNoCall T ∧ HitDelivered T := by
  refine ⟨?_, ?_, ?_, ?_⟩
  · have hnil : obmHeights T = [] := by
      rw [obmHeights, List.filterMap_eq_nil_iff]
      intro e he
      have := hT e he
      cases e <;> simp_all [isObmOrMres]
    rw [hnil]
    exact List.Pairwise.nil
  · refine mbp_of_no_obm T ?_
    intro h' e he
    have := hT e he
    cases e <;> simp_all [isObmOrMres, obmAt]
  · refine nhnc_of_no_mres T ?_
    intro h hmem
    have := hT _ hmem
    simp [isObmOrMres] at this
  · refine hd_of_no_mres T ?_
    intro h hmem
    have := hT _ hmem
    simp [isObmOrMres] at this

/-- Phase-A traces carry no Phase-B events. -/
theorem phaseALoop_nonscan (env : Env) (cps : List (Nat × Hash)) (ct fuel : Nat)
    (c : CfHeaderChain) :
    ∀ e ∈ (phaseALoop env cps ct fuel c).1, evScanHeight e = none := by
  intro e he
  rcases phaseALoop_events env cps ct fuel c e he with
    ⟨h, rfl⟩ | ⟨s, hh, rfl⟩ | ⟨s, rfl⟩ | ⟨h, hh, rfl⟩ <;> rfl

/-- Events with no scan height are neither deliveries nor verdicts. -/
theorem clean_of_nonscan {e : Event} (h : evScanHeight e = none) :
    isObmOrMres e = false := by
  cases e <;> simp_all [evScanHeight, isObmOrMres]

/-- Events with no scan height are not persists. -/
theorem not_sls_of_nonscan {e : Event} (h : evScanHeight e = none) (h' : Nat) :
    e ≠ Event.set_last_scanned h' := by
  cases e <;> simp_all [evScanHeight]

/-- Events with no scan height are not bad deliveries. -/
theorem not_obmBad_of_nonscan {e : Event} (h : evScanHeight e = none) (h' : Nat) :
    obmBad h' e = false := by
  cases e <;> simp_all [evScanHeight, obmBad]

/-- Events with no scan height are not verdicts. -/
theorem not_mres_of_nonscan {e : Event} (h : evScanHeight e = none) (h' : Nat)
    (r : Option Bool) : e ≠ Event.match_res h' r := by
  cases e <;> simp_all [evScanHeight]

/-- C2. In every run (any collaborators, any checkpoints, any fuel), the
`on_block_match` heights are strictly ascending; wherever `set_last_scanned h`
appears, every `on_block_match` at `h` precedes it and completed
successfully, and none follows it; a no-hit verdict at `h` is immediately
followed by `set_last_scanned h`; and a persisted hit at `h` had a
successful `on_block_match` at `h` delivered in between. -/
theorem c2_scan_order (env : Env) (cps : List (Nat × Hash)) (fuel : Nat) :
    List.Pairwise (· < ·) (obmHeights (run_to_tip env cps fuel).1) ∧
    MatchBeforePersist (run_to_tip env cps fuel).1 ∧
    NoHitNoCall (run_to_tip env cps fuel).1 ∧
    HitDelivered (run_to_tip env cps fuel).1 := by
  rcases hload : env.load_cf_tip with _ | cf_tip
  · simp only [run_to_tip, hload]
    exact c2_props_of_clean _ (by intro e he; simp at he; subst he; rfl)
  rcases htip : env.tip_height with _ | ct
  · simp only [run_to_tip, hload, htip]
    refine c2_props_of_clean _ ?_
    intro e he
    simp only [List.mem_cons, List.not_mem_nil, or_false] at he
    rcases he with rfl | rfl <;> rfl
  rcases hpa : phaseALoop env cps ct fuel (CfHeaderChain.new_from_store cf_tip)
    with ⟨trA, rA⟩
  have hAnon : ∀ e ∈ trA, evScanHeight e = none := by
    intro e he
    exact phaseALoop_nonscan env cps ct fuel _ e (by rw [hpa]; exact he)
  rcases rA with eA | c
  · simp only [run_to_tip, hload, htip, hpa]
    refine c2_props_of_clean _ ?_
    intro e he
    simp only [List.cons_append, List.nil_append, List.mem_cons] at he
    rcases he with rfl | rfl | hin
    · rfl
    · rfl
    · exact clean_of_nonscan (hAnon e hin)
  rcases hlast : env.get_last_scanned with _ | last
  · simp only [run_to_tip, hload, htip, hpa, hlast]
    refine c2_props_of_clean _ ?_
    intro e he
    simp only [List.mem_append, List.cons_append, List.nil_append, List.mem_cons,
      List.not_mem_nil, or_false] at he
    rcases he with rfl | rfl | hin | rfl
    · rfl
    · rfl
    · exact clean_of_nonscan (hAnon e hin)
    · rfl
  rcases hw : env.watchlist with _ | w
  · simp only [run_to_tip, hload, htip, hpa, hlast, hw]
    refine c2_props_of_clean _ ?_
    intro e he
    simp only [List.mem_append, List.cons_append, List.nil_append, List.mem_cons,
      List.not_mem_nil, or_false] at he
    rcases he with rfl | rfl | hin | rfl | rfl
    · rfl
    · rfl
    · exact clean_of_nonscan (hAnon e hin)
    · rfl
    · rfl
  by_cases hempty : w.isEmpty
  · simp only [run_to_tip, hload, htip, hpa, hlast, hw, hempty, if_true]
    refine c2_props_of_clean _ ?_
    intro e he
    simp only [List.mem_append, List.cons_append, List.nil_append, List.mem_cons,
      List.not_mem_nil, or_false] at he
    rcases he with rfl | rfl | hin | rfl | rfl | rfl
    · rfl
    · rfl
    · exact clean_of_nonscan (hAnon e hin)
    · rfl
    · rfl
    · rfl
  · simp only [run_to_tip, hload, htip, hpa, hlast, hw]
    rw [if_neg hempty]
    dsimp only
    have hXnon : ∀ e ∈ ([Event.load_cf_tip, Event.tip_height_q] ++ trA) ++
        [Event.get_last_scanned, Event.watchlist_q], evScanHeight e = none := by
      intro e he
      simp only [List.mem_append, List.cons_append, List.nil_append, List.mem_cons,
        List.not_mem_nil, or_false] at he
      rcases he with rfl | rfl | hin | rfl | rfl
      · rfl
      · rfl
      · exact hAnon e hin
      · rfl
      · rfl
    have hpw : List.Pairwise (· < ·)
        (List.range' ((last + 1) % u32Size) (c.tip_height + 1 - (last + 1) % u32Size)) :=
      List.pairwise_lt_range' _ _
    refine ⟨?_, ?_, ?_, ?_⟩
    · have hsplit : obmHeights ((([Event.load_cf_tip, Event.tip_height_q] ++ trA) ++
          [Event.get_last_scanned, Event.watchlist_q]) ++
          (scanLoop env w (List.range' ((last + 1) % u32Size)
            (c.tip_height + 1 - (last + 1) % u32Size))).1) =
          obmHeights (([Event.load_cf_tip, Event.tip_height_q] ++ trA) ++
            [Event.get_last_scanned, Event.watchlist_q]) ++
          obmHeights (scanLoop env w (List.range' ((last + 1) % u32Size)
            (c.tip_height + 1 - (last + 1) % u32Size))).1 := by
        simp [obmHeights]
      rw [hsplit]
      have hXnil : obmHeights (([Event.load_cf_tip, Event.tip_height_q] ++ trA) ++
          [Event.get_last_scanned, Event.watchlist_q]) = [] := by
        rw [obmHeights, List.filterMap_eq_nil_iff]
        intro e he
        have := hXnon e he
        cases e <;> simp_all [evScanHeight]
      rw [hXnil, List.nil_append]
      exact List.Pairwise.sublist (scanLoop_obmH env w _) hpw
    · refine mbp_append (mbp_of_no_obm _ ?_) (scanLoop_mbp env w _ hpw) ?_ ?_
      · intro h' e he
        have := hXnon e he
        cases e <;> simp_all [evScanHeight, obmAt]
      · intro h hsmem e _
        exact absurd rfl (not_sls_of_nonscan (hXnon _ hsmem) h)
      · intro h _ e hemem
        exact not_obmBad_of_nonscan (hXnon e hemem) h
    · refine nhnc_append (nhnc_of_no_mres _ ?_) (scanLoop_nhnc env w _)
      intro h hmem
      exact absurd rfl (not_mres_of_nonscan (hXnon _ hmem) h (some false))
    · refine hd_append (hd_of_no_mres _ ?_) (scanLoop_hd env w _ hpw) ?_
      · intro h hmem
        exact absurd rfl (not_mres_of_nonscan (hXnon _ hmem) h (some true))
      · intro h hmem _
        exact absurd rfl (not_mres_of_nonscan (hXnon _ hmem) h (some true))

end Niebla
